import Mathlib

/-!
Verification of the ipkg package manager core against its specification.

The definitions below are shallow embeddings of the Python sources:
  * `src/ipkg/requirements.py`  (version selectors, requirement algebra)
  * `src/ipkg/platforms.py`     (platform triples with `any` wildcards)
  * `src/ipkg/dependencies.py`  (the dependency solver)
  * `src/ipkg/environments.py`  (environment install/uninstall meta logic)
  * `src/ipkg/build.py`         (the build pipeline)
  * `src/ipkg/utils.py`         (DictFile persistence)
  * `src/ipkg/prefix_rewriters.py`

Versions in the source are `pkg_resources.parse_version` values: opaque,
totally ordered tuples.  They are modelled by an arbitrary linear order `V`;
all version handling in the verified code only compares versions.
-/

namespace Ipkg

/-! ## Version selectors (`src/ipkg/requirements.py`) -/

/-- Comparison operators of the `OPERATORS` table in `requirements.py`. -/
inductive Cmp
  | eq | ne | lt | le | gt | ge
deriving DecidableEq, Repr

/-- Application of one comparator, as in `Requirement.satisfied_by_version`:
`op(version, v)` where `version` is the candidate's version. -/
def opHolds {V : Type} [LinearOrder V] : Cmp → V → V → Bool
  | .eq, x, y => decide (x = y)
  | .ne, x, y => decide (x ≠ y)
  | .lt, x, y => decide (x < y)
  | .le, x, y => decide (x ≤ y)
  | .gt, x, y => decide (y < x)
  | .ge, x, y => decide (y ≤ x)

/-- The set of versions carried by one operator class:
`selectors = defaultdict(set); for op, version in version_selectors:
selectors[op].add(version)` in `remove_useless_version_selectors`. -/
def classVers {V : Type} [DecidableEq V] (c : Cmp) (vs : List (Cmp × V)) : Finset V :=
  ((vs.filter (fun p => p.1 == c)).map Prod.snd).toFinset

/-- Largest element of a finite version set, `sorted(s)[-1]` in Python
(`None` for the empty set, matching the source's `else: ... = None`). -/
def fmax? {V : Type} [LinearOrder V] (s : Finset V) : Option V :=
  if h : s.Nonempty then some (s.max' h) else none

/-- Smallest element of a finite version set, `sorted(s)[0]` in Python. -/
def fmin? {V : Type} [LinearOrder V] (s : Finset V) : Option V :=
  if h : s.Nonempty then some (s.min' h) else none

/-- Canonicalization failure, `ExclusiveVersionRequirements` in the source.
The payload (the offending operands) is not modelled. -/
inductive VersionConflict
  | conflict
deriving DecidableEq, Repr

/-- Choice of the strictest lower bound (`g_selector` computation in
`remove_useless_version_selectors`, lines 249-261). -/
def lowerSel {V : Type} [LinearOrder V] (gev gtv : Option V) : Option (Cmp × V) :=
  match gev, gtv with
  | some gev, some gtv => if gev ≤ gtv then some (.gt, gtv) else some (.ge, gev)
  | some gev, none => some (.ge, gev)
  | none, some gtv => some (.gt, gtv)
  | none, none => none

/-- Choice of the strictest upper bound (`l_selector` computation in
`remove_useless_version_selectors`, lines 235-247). -/
def upperSel {V : Type} [LinearOrder V] (lev ltv : Option V) : Option (Cmp × V) :=
  match lev, ltv with
  | some lev, some ltv => if lev < ltv then some (.le, lev) else some (.lt, ltv)
  | some lev, none => some (.le, lev)
  | none, some ltv => some (.lt, ltv)
  | none, none => none

/-- Interaction of the two kept bounds (source lines 263-273): equal versions
with `>=`/`<=` collapse into an extra `==`; any other coincidence or a lower
bound above the upper bound raises `ExclusiveVersionRequirements`. -/
def combineBounds {V : Type} [LinearOrder V] (gsel lsel : Option (Cmp × V)) :
    Except VersionConflict (Option (Cmp × V) × Option (Cmp × V) × Option V) :=
  match gsel, lsel with
  | some (gop, gv), some (lop, lv) =>
    if gv = lv then
      if gop = Cmp.ge ∧ lop = Cmp.le then .ok (none, none, some lv)
      else .error .conflict
    else if lv < gv then .error .conflict
    else .ok (some (gop, gv), some (lop, lv), none)
  | g, l => .ok (g, l, none)

/-- Resolution of the `==` class (source lines 275-281): exactly one distinct
version is kept, more than one raises. -/
def eqResolve {V : Type} [LinearOrder V] (eqs : Finset V) :
    Except VersionConflict (Option V) :=
  if eqs.card = 1 then .ok (fmin? eqs)
  else if 1 < eqs.card then .error .conflict
  else .ok none

/-- Shallow embedding of `remove_useless_version_selectors`
(`src/ipkg/requirements.py` lines 207-297).  Note that, as in the source, the
`!=` class is never inspected and is dropped from the result, and a kept `==`
is incompatible with any remaining bound (lines 285-288). -/
def removeUselessVersionSelectors {V : Type} [LinearOrder V] [DecidableEq V]
    (vs : List (Cmp × V)) : Except VersionConflict (List (Cmp × V)) :=
  match combineBounds (lowerSel (fmax? (classVers .ge vs)) (fmax? (classVers .gt vs)))
      (upperSel (fmin? (classVers .le vs)) (fmin? (classVers .lt vs))) with
  | .error e => .error e
  | .ok (gsel, lsel, extra) =>
    match eqResolve (classVers .eq vs ∪ (match extra with | some v => {v} | none => ∅)) with
    | .error e => .error e
    | .ok (some v) =>
      if gsel.isSome ∨ lsel.isSome then .error .conflict
      else .ok [(Cmp.eq, v)]
    | .ok none => .ok (gsel.toList ++ lsel.toList)

/-! ### Computation lemmas for the selector classes -/

theorem classVers_nil {V : Type} [DecidableEq V] (c : Cmp) :
    classVers c ([] : List (Cmp × V)) = ∅ := rfl

theorem classVers_cons_self {V : Type} [DecidableEq V] (c : Cmp) (v : V)
    (rest : List (Cmp × V)) :
    classVers c ((c, v) :: rest) = insert v (classVers c rest) := by
  simp [classVers, List.filter_cons]

theorem classVers_cons_ne {V : Type} [DecidableEq V] {c c' : Cmp} (v : V)
    (rest : List (Cmp × V)) (h : c' ≠ c) :
    classVers c ((c', v) :: rest) = classVers c rest := by
  simp [classVers, List.filter_cons, h]

theorem fmax?_empty {V : Type} [LinearOrder V] : fmax? (∅ : Finset V) = none := by
  simp [fmax?]

theorem fmin?_empty {V : Type} [LinearOrder V] : fmin? (∅ : Finset V) = none := by
  simp [fmin?]

theorem fmax?_singleton {V : Type} [LinearOrder V] (a : V) :
    fmax? ({a} : Finset V) = some a := by
  simp [fmax?, Finset.max'_singleton]

theorem fmin?_singleton {V : Type} [LinearOrder V] (a : V) :
    fmin? ({a} : Finset V) = some a := by
  simp [fmin?, Finset.min'_singleton]

theorem fmax?_pair {V : Type} [LinearOrder V] [DecidableEq V] (a b : V) :
    fmax? ({a, b} : Finset V) = some (a ⊔ b) := by
  have hne : ({a, b} : Finset V).Nonempty := ⟨a, by simp⟩
  have hmem := Finset.max'_mem ({a, b} : Finset V) hne
  simp only [Finset.mem_insert, Finset.mem_singleton] at hmem
  have hub : a ⊔ b ≤ ({a, b} : Finset V).max' hne :=
    sup_le (Finset.le_max' _ a (by simp)) (Finset.le_max' _ b (by simp))
  have hlb : ({a, b} : Finset V).max' hne ≤ a ⊔ b := by
    rcases hmem with h | h
    · rw [h]; exact le_sup_left
    · rw [h]; exact le_sup_right
  have hle : ({a, b} : Finset V).max' hne = a ⊔ b := le_antisymm hlb hub
  simp [fmax?, hne, hle]

theorem fmin?_pair {V : Type} [LinearOrder V] [DecidableEq V] (a b : V) :
    fmin? ({a, b} : Finset V) = some (a ⊓ b) := by
  have hne : ({a, b} : Finset V).Nonempty := ⟨a, by simp⟩
  have hmem := Finset.min'_mem ({a, b} : Finset V) hne
  simp only [Finset.mem_insert, Finset.mem_singleton] at hmem
  have hlb : ({a, b} : Finset V).min' hne ≤ a ⊓ b :=
    le_inf (Finset.min'_le _ a (by simp)) (Finset.min'_le _ b (by simp))
  have hub : a ⊓ b ≤ ({a, b} : Finset V).min' hne := by
    rcases hmem with h | h
    · rw [h]; exact inf_le_left
    · rw [h]; exact inf_le_right
  have hle : ({a, b} : Finset V).min' hne = a ⊓ b := le_antisymm hlb hub
  simp [fmin?, hne, hle]

/-- C2: constraint canonicalization collapses multiple lower bounds to the
strictest and multiple upper bounds to the strictest (so `>1,>2` becomes `>2`
and `<=3,<3` becomes `<3`), collapses a combined `>=v,<=v` to `==v`, and
fails with a `ConflictingConstraint` (`ExclusiveVersionRequirements`) error
when the bounds are incompatible (e.g. `>2,<1`) or when two `==` constraints
disagree. -/
theorem removeUseless_canonicalizes {V : Type} [LinearOrder V] [DecidableEq V]
    (a b c d v p q x y : V) (hpq : p ≤ q) (hxy : x ≠ y) :
    removeUselessVersionSelectors [(Cmp.gt, a), (Cmp.gt, b)] = .ok [(Cmp.gt, a ⊔ b)] ∧
    removeUselessVersionSelectors [(Cmp.lt, a), (Cmp.lt, b)] = .ok [(Cmp.lt, a ⊓ b)] ∧
    removeUselessVersionSelectors [(Cmp.ge, a), (Cmp.gt, b)] =
      .ok [if a ≤ b then (Cmp.gt, b) else (Cmp.ge, a)] ∧
    removeUselessVersionSelectors [(Cmp.le, c), (Cmp.lt, d)] =
      .ok [if c < d then (Cmp.le, c) else (Cmp.lt, d)] ∧
    removeUselessVersionSelectors [(Cmp.ge, v), (Cmp.le, v)] = .ok [(Cmp.eq, v)] ∧
    removeUselessVersionSelectors [(Cmp.gt, q), (Cmp.lt, p)] = .error .conflict ∧
    removeUselessVersionSelectors [(Cmp.eq, x), (Cmp.eq, y)] = .error .conflict := by
  refine ⟨?_, ?_, ?_, ?_, ?_, ?_, ?_⟩
  · have h1 : classVers Cmp.gt [(Cmp.gt, a), (Cmp.gt, b)] = {a, b} := by simp [classVers]
    have h2 : classVers Cmp.ge [(Cmp.gt, a), (Cmp.gt, b)] = ∅ := by simp [classVers]
    have h3 : classVers Cmp.le [(Cmp.gt, a), (Cmp.gt, b)] = ∅ := by simp [classVers]
    have h4 : classVers Cmp.lt [(Cmp.gt, a), (Cmp.gt, b)] = ∅ := by simp [classVers]
    have h5 : classVers Cmp.eq [(Cmp.gt, a), (Cmp.gt, b)] = ∅ := by simp [classVers]
    rw [removeUselessVersionSelectors, h1, h2, h3, h4, h5, fmax?_pair, fmax?_empty,
      fmin?_empty]
    simp [lowerSel, upperSel, combineBounds, eqResolve]
  · have h1 : classVers Cmp.gt [(Cmp.lt, a), (Cmp.lt, b)] = ∅ := by simp [classVers]
    have h2 : classVers Cmp.ge [(Cmp.lt, a), (Cmp.lt, b)] = ∅ := by simp [classVers]
    have h3 : classVers Cmp.le [(Cmp.lt, a), (Cmp.lt, b)] = ∅ := by simp [classVers]
    have h4 : classVers Cmp.lt [(Cmp.lt, a), (Cmp.lt, b)] = {a, b} := by simp [classVers]
    have h5 : classVers Cmp.eq [(Cmp.lt, a), (Cmp.lt, b)] = ∅ := by simp [classVers]
    rw [removeUselessVersionSelectors, h1, h2, h3, h4, h5, fmin?_pair, fmax?_empty,
      fmin?_empty]
    simp [lowerSel, upperSel, combineBounds, eqResolve]
  · have h1 : classVers Cmp.gt [(Cmp.ge, a), (Cmp.gt, b)] = {b} := by simp [classVers]
    have h2 : classVers Cmp.ge [(Cmp.ge, a), (Cmp.gt, b)] = {a} := by simp [classVers]
    have h3 : classVers Cmp.le [(Cmp.ge, a), (Cmp.gt, b)] = ∅ := by simp [classVers]
    have h4 : classVers Cmp.lt [(Cmp.ge, a), (Cmp.gt, b)] = ∅ := by simp [classVers]
    have h5 : classVers Cmp.eq [(Cmp.ge, a), (Cmp.gt, b)] = ∅ := by simp [classVers]
    rw [removeUselessVersionSelectors, h1, h2, h3, h4, h5, fmax?_singleton,
      fmax?_singleton, fmin?_empty]
    rcases le_or_lt a b with h | h
    · simp [lowerSel, upperSel, combineBounds, eqResolve, h]
    · simp [lowerSel, upperSel, combineBounds, eqResolve, h.not_le, not_le_of_gt h]
  · have h1 : classVers Cmp.gt [(Cmp.le, c), (Cmp.lt, d)] = ∅ := by simp [classVers]
    have h2 : classVers Cmp.ge [(Cmp.le, c), (Cmp.lt, d)] = ∅ := by simp [classVers]
    have h3 : classVers Cmp.le [(Cmp.le, c), (Cmp.lt, d)] = {c} := by simp [classVers]
    have h4 : classVers Cmp.lt [(Cmp.le, c), (Cmp.lt, d)] = {d} := by simp [classVers]
    have h5 : classVers Cmp.eq [(Cmp.le, c), (Cmp.lt, d)] = ∅ := by simp [classVers]
    rw [removeUselessVersionSelectors, h1, h2, h3, h4, h5, fmin?_singleton,
      fmin?_singleton, fmax?_empty]
    rcases lt_or_le c d with h | h
    · simp [lowerSel, upperSel, combineBounds, eqResolve, h]
    · simp [lowerSel, upperSel, combineBounds, eqResolve, h.not_lt, not_lt_of_ge h]
  · have h1 : classVers Cmp.gt [(Cmp.ge, v), (Cmp.le, v)] = ∅ := by simp [classVers]
    have h2 : classVers Cmp.ge [(Cmp.ge, v), (Cmp.le, v)] = {v} := by simp [classVers]
    have h3 : classVers Cmp.le [(Cmp.ge, v), (Cmp.le, v)] = {v} := by simp [classVers]
    have h4 : classVers Cmp.lt [(Cmp.ge, v), (Cmp.le, v)] = ∅ := by simp [classVers]
    have h5 : classVers Cmp.eq [(Cmp.ge, v), (Cmp.le, v)] = ∅ := by simp [classVers]
    rw [removeUselessVersionSelectors, h1, h2, h3, h4, h5, fmax?_singleton, fmax?_empty,
      fmin?_singleton, fmin?_empty]
    simp [lowerSel, upperSel, combineBounds, eqResolve, fmin?_singleton]
  · have h1 : classVers Cmp.gt [(Cmp.gt, q), (Cmp.lt, p)] = {q} := by simp [classVers]
    have h2 : classVers Cmp.ge [(Cmp.gt, q), (Cmp.lt, p)] = ∅ := by simp [classVers]
    have h3 : classVers Cmp.le [(Cmp.gt, q), (Cmp.lt, p)] = ∅ := by simp [classVers]
    have h4 : classVers Cmp.lt [(Cmp.gt, q), (Cmp.lt, p)] = {p} := by simp [classVers]
    rw [removeUselessVersionSelectors, h1, h2, h3, h4, fmax?_singleton, fmax?_empty,
      fmin?_singleton, fmin?_empty]
    rcases lt_or_eq_of_le hpq with h | h
    · simp [lowerSel, upperSel, combineBounds, h, not_lt_of_gt h]
    · subst h
      simp [lowerSel, upperSel, combineBounds]
  · have h1 : classVers Cmp.gt [(Cmp.eq, x), (Cmp.eq, y)] = ∅ := by simp [classVers]
    have h2 : classVers Cmp.ge [(Cmp.eq, x), (Cmp.eq, y)] = ∅ := by simp [classVers]
    have h3 : classVers Cmp.le [(Cmp.eq, x), (Cmp.eq, y)] = ∅ := by simp [classVers]
    have h4 : classVers Cmp.lt [(Cmp.eq, x), (Cmp.eq, y)] = ∅ := by simp [classVers]
    have h5 : classVers Cmp.eq [(Cmp.eq, x), (Cmp.eq, y)] = {x, y} := by simp [classVers]
    rw [removeUselessVersionSelectors, h1, h2, h3, h4, h5, fmax?_empty, fmin?_empty]
    have hcard : ({x, y} : Finset V).card = 2 := by
      rw [Finset.card_insert_of_not_mem (by simp [hxy]), Finset.card_singleton]
    simp [lowerSel, upperSel, combineBounds, eqResolve, hcard]

/-- Witness for C2 at the spec's concrete examples over natural-number
versions. -/
theorem removeUseless_canonicalizes_witness :
    (1 : Nat) ≤ 2 ∧ (1 : Nat) ≠ 2 ∧
    (removeUselessVersionSelectors [(Cmp.gt, (1 : Nat)), (Cmp.gt, 2)] =
        .ok [(Cmp.gt, 1 ⊔ 2)] ∧
      removeUselessVersionSelectors [(Cmp.lt, (1 : Nat)), (Cmp.lt, 2)] =
        .ok [(Cmp.lt, 1 ⊓ 2)] ∧
      removeUselessVersionSelectors [(Cmp.ge, (1 : Nat)), (Cmp.gt, 2)] =
        .ok [if (1 : Nat) ≤ 2 then (Cmp.gt, 2) else (Cmp.ge, 1)] ∧
      removeUselessVersionSelectors [(Cmp.le, (3 : Nat)), (Cmp.lt, 3)] =
        .ok [if (3 : Nat) < 3 then (Cmp.le, 3) else (Cmp.lt, 3)] ∧
      removeUselessVersionSelectors [(Cmp.ge, (1 : Nat)), (Cmp.le, 1)] =
        .ok [(Cmp.eq, 1)] ∧
      removeUselessVersionSelectors [(Cmp.gt, (2 : Nat)), (Cmp.lt, 1)] =
        .error .conflict ∧
      removeUselessVersionSelectors [(Cmp.eq, (1 : Nat)), (Cmp.eq, 2)] =
        .error .conflict) :=
  ⟨by decide, by decide,
    removeUseless_canonicalizes 1 2 3 3 1 1 2 1 2 (by decide) (by decide)⟩

/-! ## Platforms (`src/ipkg/platforms.py`) -/

/-- A platform triple, `Platform.__init__`.  Any component may be the
wildcard string `any`. -/
structure Platform where
  osName : String
  osRelease : String
  arch : String
deriving DecidableEq, Repr

/-- Shallow embedding of `Platform.__eq__` (`src/ipkg/platforms.py` lines
27-39): each component matches exactly or at least one side is `any`. -/
def platformEq (p q : Platform) : Bool :=
  (p.osName == "any" || q.osName == "any" || p.osName == q.osName) &&
  (p.osRelease == "any" || q.osRelease == "any" || p.osRelease == q.osRelease) &&
  (p.arch == "any" || q.arch == "any" || p.arch == q.arch)

theorem platformEq_refl (p : Platform) : platformEq p p = true := by
  simp [platformEq]

/-! ## Requirements and satisfaction (`src/ipkg/requirements.py`) -/

/-- A requirement, `Requirement.__init__`: a platform, a name, a set of
extras, and a canonicalized list of version selectors.  Extras are rendered
by Python from a `set`, whose printed order is a function of its contents, so
a `Finset` carries exactly the information of the canonical string form. -/
structure Req (V : Type) where
  platform : Platform
  name : String
  extras : Finset String
  versions : List (Cmp × V)
deriving DecidableEq

/-- A candidate object as tested by `Requirement.satisfied_by`: anything
carrying a platform, a name and a version (a `Formula`, a package, or an
installed package's meta). -/
structure Candidate (V : Type) where
  platform : Platform
  name : String
  version : V
deriving DecidableEq

/-- Shallow embedding of `Requirement.satisfied_by_version` (lines 110-113):
every selector pair must hold of the candidate version. -/
def satisfiedByVersion {V : Type} [LinearOrder V] (r : Req V) (version : V) : Bool :=
  r.versions.all (fun p => opHolds p.1 version p.2)

/-- Shallow embedding of `Requirement.satisfied_by` (lines 115-130), object
branch, for a candidate that has `platform`, `name` and `version` attributes:
the candidate's platform is compared with `Platform.__eq__` (wildcards), the
name by string equality, and the version with `satisfied_by_version`. -/
def satisfiedBy {V : Type} [LinearOrder V] (r : Req V) (c : Candidate V) : Bool :=
  platformEq c.platform r.platform && c.name == r.name &&
    satisfiedByVersion r c.version

/-- The specification's wording of platform compatibility: each of the three
components matches exactly or at least one side is the wildcard `any`. -/
def specPlatformsCompatible (p q : Platform) : Prop :=
  (p.osName = q.osName ∨ p.osName = "any" ∨ q.osName = "any") ∧
  (p.osRelease = q.osRelease ∨ p.osRelease = "any" ∨ q.osRelease = "any") ∧
  (p.arch = q.arch ∨ p.arch = "any" ∨ q.arch = "any")

/-- C3: a candidate `(platform, name, version)` satisfies a requirement `r`
if and only if the candidate's name equals `r`'s name, the platforms are
compatible (each component matches exactly or at least one side is `any`),
and the version passes every `(comparator, version)` pair of `r`'s
constraint. -/
theorem satisfiedBy_iff {V : Type} [LinearOrder V] (r : Req V) (c : Candidate V) :
    satisfiedBy r c = true ↔
      (c.name = r.name ∧ specPlatformsCompatible c.platform r.platform ∧
        ∀ p ∈ r.versions, opHolds p.1 c.version p.2 = true) := by
  simp only [satisfiedBy, satisfiedByVersion, platformEq, specPlatformsCompatible,
    Bool.and_eq_true, Bool.or_eq_true, beq_iff_eq, List.all_eq_true]
  tauto

/-- Witness for C3 at a concrete requirement and candidate: requirement
`osx-10.8-x86_64:foo >=1,<3` and candidate `(any-any-any, foo, 2)`. -/
theorem satisfiedBy_iff_witness :
    satisfiedBy
        (Req.mk (Platform.mk "osx" "10.8" "x86_64") "foo" ∅
          [(Cmp.ge, (1 : Nat)), (Cmp.lt, 3)])
        (Candidate.mk (Platform.mk "any" "any" "any") "foo" 2) = true ↔
      ("foo" = "foo" ∧
        specPlatformsCompatible (Platform.mk "any" "any" "any")
          (Platform.mk "osx" "10.8" "x86_64") ∧
        ∀ p ∈ [(Cmp.ge, (1 : Nat)), (Cmp.lt, 3)],
          opHolds p.1 (2 : Nat) p.2 = true) :=
  satisfiedBy_iff
    (Req.mk (Platform.mk "osx" "10.8" "x86_64") "foo" ∅
      [(Cmp.ge, (1 : Nat)), (Cmp.lt, 3)])
    (Candidate.mk (Platform.mk "any" "any" "any") "foo" 2)

/-! ## Prefix rewriting (`src/ipkg/prefix_rewriters.py`) -/

/-- Python's `str.startswith`, on the underlying character lists. -/
def strStarts (s pre : String) : Bool :=
  pre.data.isPrefixOf s.data

/-- The loop body of `rewrite_text_first_match` (lines 44-55).  The file has
been opened with mode `w` (truncated); `written` is the content already
written back.  `lines.pop(0)` on an exhausted list raises `IndexError`,
modelled as `.error` carrying the lines written into the truncated file at
that moment.  On a match the rewritten line and the remaining lines are
written and the loop breaks, modelled as `.ok` with the final file content. -/
def rewriteLoop (lineStart bp ip : String) (written : List String) :
    List String → Except (List String) (List String)
  | [] => .error written
  | l :: rest =>
    if strStarts l lineStart then .ok (written ++ (l.replace bp ip) :: rest)
    else rewriteLoop lineStart bp ip (written ++ [l]) rest

/-- Shallow embedding of `rewrite_text_first_match` (lines 37-55): the file's
lines are read, the file is truncated, and lines are popped and written back
until one starts with `lineStart`. -/
def rewriteTextFirstMatch (lineStart bp ip : String) (lines : List String) :
    Except (List String) (List String) :=
  rewriteLoop lineStart bp ip [] lines

/-- Embedding of `rewrite_pkgconfig` (lines 58-62): marker `prefix=`. -/
def rewritePkgconfig (bp ip : String) (lines : List String) :
    Except (List String) (List String) :=
  rewriteTextFirstMatch "prefix=" bp ip lines

/-- Embedding of `rewrite_libtool` (lines 65-69): marker `libdir=`. -/
def rewriteLibtool (bp ip : String) (lines : List String) :
    Except (List String) (List String) :=
  rewriteTextFirstMatch "libdir=" bp ip lines

theorem rewriteLoop_no_match (lineStart bp ip : String) (written rest : List String)
    (h : ∀ l ∈ rest, strStarts l lineStart = false) :
    rewriteLoop lineStart bp ip written rest = .error (written ++ rest) := by
  induction rest generalizing written with
  | nil => simp [rewriteLoop]
  | cons l rest ih =>
    have hl : strStarts l lineStart = false := h l (by simp)
    rw [rewriteLoop, hl]
    simp only [Bool.false_eq_true, if_false]
    rw [ih (written ++ [l]) (fun x hx => h x (by simp [hx]))]
    simp

/-- C10: for a pkg-config `.pc` or libtool `.la` file whose content has no
line beginning with the expected marker (`prefix=` resp. `libdir=`),
`rewrite_text_first_match` does not terminate normally: it pops lines until a
match is found and raises `IndexError` once the list is exhausted, after the
file has been truncated and rewritten line by line (the error payload is the
content of the truncated file at the moment of the raise: every original
line, written back unchanged). -/
theorem rewrite_missing_marker_raises (bp ip : String) (pc la : List String)
    (hpc : ∀ l ∈ pc, strStarts l "prefix=" = false)
    (hla : ∀ l ∈ la, strStarts l "libdir=" = false) :
    rewritePkgconfig bp ip pc = .error pc ∧ rewriteLibtool bp ip la = .error la := by
  constructor
  · rw [rewritePkgconfig, rewriteTextFirstMatch, rewriteLoop_no_match _ _ _ _ _ hpc]
    simp
  · rw [rewriteLibtool, rewriteTextFirstMatch, rewriteLoop_no_match _ _ _ _ _ hla]
    simp

/-- Witness for C10: a two-line `.pc` file without a `prefix=` line and a
one-line `.la` file without a `libdir=` line. -/
theorem rewrite_missing_marker_raises_witness :
    rewritePkgconfig "/build" "/env" ["Name: foo", "Version: 1.0"] =
        .error ["Name: foo", "Version: 1.0"] ∧
      rewriteLibtool "/build" "/env" ["dlname=foo.so"] = .error ["dlname=foo.so"] :=
  rewrite_missing_marker_raises "/build" "/env" ["Name: foo", "Version: 1.0"]
    ["dlname=foo.so"] (by decide) (by decide)

/-! ## Environment meta persistence (`src/ipkg/utils.py`, `DictFile`) -/

/-- A primitive file-system operation, for describing what `DictFile.save`
does to the on-disk meta document. -/
inductive FsOp
  | truncate (path : String)
  | write (path : String) (chunk : String)
  | rename (src dst : String)
deriving DecidableEq, Repr

/-- Check for the rename primitive. -/
def FsOp.isRen : FsOp → Bool
  | .rename _ _ => true
  | _ => false

/-- A tiny file-system state: an association list from paths to contents. -/
def Fs : Type := List (String × String)

/-- Content of a file, if present. -/
def getFile (fs : Fs) (p : String) : Option String :=
  (List.find? (fun e => e.1 == p) fs).map (fun e => e.2)

/-- Write a file's content (insert or overwrite). -/
def setFile (fs : Fs) (p v : String) : Fs :=
  match fs with
  | [] => [(p, v)]
  | e :: rest => if e.1 == p then (p, v) :: rest else e :: setFile rest p v

/-- Apply one primitive operation. -/
def applyOp (fs : Fs) : FsOp → Fs
  | .truncate p => setFile fs p ""
  | .write p c => setFile fs p ((getFile fs p).getD "" ++ c)
  | .rename src dst =>
    match getFile fs src with
    | some v => setFile (List.filter (fun e => ¬ e.1 == src) fs) dst v
    | none => fs

/-- Apply a sequence of operations. -/
def applyOps (fs : Fs) (ops : List FsOp) : Fs :=
  ops.foldl applyOp fs

/-- Shallow embedding of `DictFile.save` (`src/ipkg/utils.py` lines 81-85):
`open(self.__file_path, 'w')` truncates the target file in place, then
`json.dump` streams the serialized document into it as a sequence of writes
(`chunks` abstracts the serializer's write granularity).  No temporary file
and no rename is involved. -/
def dictFileSaveOps (path : String) (chunks : List String) : List FsOp :=
  FsOp.truncate path :: chunks.map (FsOp.write path)

/-- Concatenation of the serialized chunks. -/
def catChunks : List String → String
  | [] => ""
  | c :: rest => c ++ catChunks rest

theorem getFile_setFile_self (fs : Fs) (p v : String) :
    getFile (setFile fs p v) p = some v := by
  induction fs with
  | nil => simp [getFile, setFile]
  | cons e rest ih =>
    by_cases he : e.1 = p
    · simp [getFile, setFile, he]
    · have hbe : (e.1 == p) = false := by simp [he]
      simp only [setFile, hbe, Bool.false_eq_true, if_false]
      simp only [getFile, List.find?, hbe] at ih ⊢
      exact ih

theorem fold_writes (path : String) (cs : List String) (k : Nat) (fs : Fs)
    (pre : String) (hk : k ≤ cs.length) (hfs : getFile fs path = some pre) :
    getFile (List.foldl applyOp fs ((cs.take k).map (FsOp.write path))) path =
      some (pre ++ catChunks (cs.take k)) := by
  induction cs generalizing k fs pre with
  | nil =>
    have hk0 : k = 0 := Nat.le_zero.mp hk
    subst hk0
    simpa [catChunks] using hfs
  | cons c rest ih =>
    match k with
    | 0 => simpa [catChunks] using hfs
    | k + 1 =>
      simp only [List.take_succ_cons, List.map_cons, List.foldl_cons, catChunks]
      have hw : getFile (applyOp fs (FsOp.write path c)) path = some (pre ++ c) := by
        simp only [applyOp, hfs, Option.getD_some]
        exact getFile_setFile_self fs path (pre ++ c)
      rw [ih k (applyOp fs (FsOp.write path c)) (pre ++ c)
        (Nat.le_of_succ_le_succ hk) hw]
      rw [String.append_assoc]

theorem str_empty_append (s : String) : "" ++ s = s := by
  cases s
  rfl

/-- The claimed property of C9, stated for one concrete save: at every point
during the save the on-disk meta file holds either the previous document or
the complete new document.  (`[(path, old)]` is the state before saving.) -/
def saveNeverPartial (path old : String) (chunks : List String) : Prop :=
  ∀ k, k ≤ (dictFileSaveOps path chunks).length →
    getFile (applyOps [(path, old)] ((dictFileSaveOps path chunks).take k)) path =
        some old ∨
      getFile (applyOps [(path, old)] ((dictFileSaveOps path chunks).take k)) path =
        some (catChunks chunks)

/-- C9 counterexample: `DictFile.save` performs no rename at all, and midway
through a save of the two-chunk document `AB` then `CD` over the old content
`OLD`, the meta file holds the partial content `AB` — neither the old nor
the new document.  The claim that the save is atomic-by-rewrite (temp file
plus rename, no partial on-disk state) is false of the code. -/
theorem dictFileSave_not_atomic :
    (dictFileSaveOps ".ipkg.meta" ["AB", "CD"]).all (fun op => !op.isRen) = true ∧
      ¬ saveNeverPartial ".ipkg.meta" "OLD" ["AB", "CD"] := by
  constructor
  · rfl
  · intro h
    have h2 := h 2 (by simp [dictFileSaveOps])
    revert h2
    decide

/-- C9 amended: `DictFile.save` truncates `prefix/.ipkg.meta` in place and
then appends the serialized chunks one by one; it performs no rename, and
after the truncation and the first `k` chunk writes the file holds exactly
the concatenation of those first `k` chunks — in general a proper prefix of
the new document, not the previous document.  A failure mid-save therefore
leaves partial content, and the previous document is already lost. -/
theorem dictFileSave_truncate_then_write (path old : String) (chunks : List String)
    (k : Nat) (hk : k ≤ chunks.length) :
    (dictFileSaveOps path chunks).all (fun op => !op.isRen) = true ∧
      getFile (applyOps [(path, old)] ((dictFileSaveOps path chunks).take (k + 1)))
          path = some (catChunks (chunks.take k)) := by
  constructor
  · simp only [dictFileSaveOps, List.all_eq_true]
    intro op hop
    rcases List.mem_cons.mp hop with rfl | hop
    · rfl
    · rcases List.mem_map.mp hop with ⟨c, _, rfl⟩
      rfl
  · rw [dictFileSaveOps]
    simp only [List.take_succ_cons, applyOps, List.foldl_cons]
    have hstart : getFile (applyOp [(path, old)] (FsOp.truncate path)) path =
        some "" := getFile_setFile_self _ _ _
    rw [← List.map_take]
    rw [fold_writes path chunks k _ "" hk hstart, str_empty_append]

/-- Witness for C9's amended theorem: saving the two chunks `AB`, `CD` over
`OLD`; after the truncation and one write the file holds exactly `AB`. -/
theorem dictFileSave_truncate_then_write_witness :
    (1 : Nat) ≤ 2 ∧
      ((dictFileSaveOps ".ipkg.meta" ["AB", "CD"]).all (fun op => !op.isRen) = true ∧
        getFile
            (applyOps [(".ipkg.meta", "OLD")]
              ((dictFileSaveOps ".ipkg.meta" ["AB", "CD"]).take 2)) ".ipkg.meta" =
          some (catChunks (["AB", "CD"].take 1))) :=
  ⟨by decide, dictFileSave_truncate_then_write ".ipkg.meta" "OLD" ["AB", "CD"] 1 (by decide)⟩

/-! ## Requirement merge (`Requirement.__add__`, `src/ipkg/requirements.py`
lines 95-108)

`r1 + r2` checks that the names agree and the platforms compare equal under
`Platform.__eq__`, renders the union `set(r1.versions + r2.versions)` and the
extras union to a string, and re-parses it, which canonicalizes the selector
list with `remove_useless_version_selectors`.  Rendering a selector and
re-parsing it yields the same `(comparator, version)` pair, and the class
finsets make the `set()` deduplication and the set iteration order
immaterial, so the merge is modelled as canonicalizing the concatenation. -/

/-- Errors of `Requirement.__add__`: mismatched names raise
`InvalidRequirement`, mismatched platforms `InvalidPlatform`, and
canonicalization failures `ExclusiveVersionRequirements`. -/
inductive MergeErr
  | invalid
  | invalidPlatform
  | conflict
deriving DecidableEq, Repr

/-- Shallow embedding of `Requirement.__add__`. -/
def reqAdd {V : Type} [LinearOrder V] [DecidableEq V] (r1 r2 : Req V) :
    Except MergeErr (Req V) :=
  if r1.name ≠ r2.name then .error .invalid
  else if platformEq r1.platform r2.platform = false then .error .invalidPlatform
  else
    match removeUselessVersionSelectors (r1.versions ++ r2.versions) with
    | .error _ => .error .conflict
    | .ok vs =>
      .ok { platform := r1.platform, name := r1.name,
            extras := r1.extras ∪ r2.extras, versions := vs }

/-! ### Summary view of canonicalization

`remove_useless_version_selectors` only consults the five operator classes
through their maxima / minima; the lemmas below package this. -/

/-- Kept lower-bound selector of a list. -/
def gSel {V : Type} [LinearOrder V] [DecidableEq V] (vs : List (Cmp × V)) :
    Option (Cmp × V) :=
  lowerSel (fmax? (classVers .ge vs)) (fmax? (classVers .gt vs))

/-- Kept upper-bound selector of a list. -/
def lSel {V : Type} [LinearOrder V] [DecidableEq V] (vs : List (Cmp × V)) :
    Option (Cmp × V) :=
  upperSel (fmin? (classVers .le vs)) (fmin? (classVers .lt vs))

/-- The tail of `remove_useless_version_selectors` as a function of the kept
bounds and the `==` class. -/
def canonOf {V : Type} [LinearOrder V] [DecidableEq V] (g l : Option (Cmp × V))
    (eqs : Finset V) : Except VersionConflict (List (Cmp × V)) :=
  match combineBounds g l with
  | .error e => .error e
  | .ok (gsel, lsel, extra) =>
    match eqResolve (eqs ∪ (match extra with | some v => {v} | none => ∅)) with
    | .error e => .error e
    | .ok (some v) =>
      if gsel.isSome ∨ lsel.isSome then .error .conflict
      else .ok [(Cmp.eq, v)]
    | .ok none => .ok (gsel.toList ++ lsel.toList)

theorem rUVS_eq_canonOf {V : Type} [LinearOrder V] [DecidableEq V]
    (vs : List (Cmp × V)) :
    removeUselessVersionSelectors vs = canonOf (gSel vs) (lSel vs) (classVers .eq vs) :=
  rfl

theorem gSel_def {V : Type} [LinearOrder V] [DecidableEq V] (vs : List (Cmp × V)) :
    gSel vs = lowerSel (fmax? (classVers .ge vs)) (fmax? (classVers .gt vs)) := rfl

theorem lSel_def {V : Type} [LinearOrder V] [DecidableEq V] (vs : List (Cmp × V)) :
    lSel vs = upperSel (fmin? (classVers .le vs)) (fmin? (classVers .lt vs)) := rfl

theorem classVers_append {V : Type} [DecidableEq V] (c : Cmp)
    (xs ys : List (Cmp × V)) :
    classVers c (xs ++ ys) = classVers c xs ∪ classVers c ys := by
  simp [classVers, List.filter_append]

/-- Maximum of two optional maxima (`None` = empty class). -/
def optMax {V : Type} [LinearOrder V] : Option V → Option V → Option V
  | none, b => b
  | some a, none => some a
  | some a, some b => some (a ⊔ b)

/-- Minimum of two optional minima. -/
def optMin {V : Type} [LinearOrder V] : Option V → Option V → Option V
  | none, b => b
  | some a, none => some a
  | some a, some b => some (a ⊓ b)

theorem fmax?_eq_none_iff {V : Type} [LinearOrder V] {s : Finset V} :
    fmax? s = none ↔ s = ∅ := by
  constructor
  · intro h
    by_contra hne
    rw [fmax?, dif_pos (Finset.nonempty_iff_ne_empty.mpr hne)] at h
    exact absurd h (by simp)
  · intro h
    subst h
    exact fmax?_empty

theorem fmin?_eq_none_iff {V : Type} [LinearOrder V] {s : Finset V} :
    fmin? s = none ↔ s = ∅ := by
  constructor
  · intro h
    by_contra hne
    rw [fmin?, dif_pos (Finset.nonempty_iff_ne_empty.mpr hne)] at h
    exact absurd h (by simp)
  · intro h
    subst h
    exact fmin?_empty

theorem fmax?_union {V : Type} [LinearOrder V] [DecidableEq V] (s t : Finset V) :
    fmax? (s ∪ t) = optMax (fmax? s) (fmax? t) := by
  rcases hs : fmax? s with _ | a
  · rw [fmax?_eq_none_iff.mp hs]
    simp [optMax]
  · rcases ht : fmax? t with _ | b
    · rw [fmax?_eq_none_iff.mp ht]
      simp [optMax, hs]
    · have hsne : s.Nonempty := by
        by_contra hc
        rw [Finset.not_nonempty_iff_eq_empty.mp hc, fmax?_empty] at hs
        exact absurd hs (by simp)
      have htne : t.Nonempty := by
        by_contra hc
        rw [Finset.not_nonempty_iff_eq_empty.mp hc, fmax?_empty] at ht
        exact absurd ht (by simp)
      have ha : s.max' hsne = a := by
        rw [fmax?, dif_pos hsne] at hs
        exact Option.some.inj hs
      have hb : t.max' htne = b := by
        rw [fmax?, dif_pos htne] at ht
        exact Option.some.inj ht
      have hune : (s ∪ t).Nonempty := Finset.Nonempty.inl hsne
      rw [fmax?, dif_pos hune]
      simp only [optMax, Option.some.injEq]
      have hle : (s ∪ t).max' hune ≤ a ⊔ b := by
        apply Finset.max'_le
        intro y hy
        rcases Finset.mem_union.mp hy with hy | hy
        · exact le_sup_of_le_left (ha ▸ Finset.le_max' s y hy)
        · exact le_sup_of_le_right (hb ▸ Finset.le_max' t y hy)
      have hge : a ⊔ b ≤ (s ∪ t).max' hune := by
        apply sup_le
        · exact Finset.le_max' _ a (Finset.mem_union_left _ (ha ▸ Finset.max'_mem s hsne))
        · exact Finset.le_max' _ b (Finset.mem_union_right _ (hb ▸ Finset.max'_mem t htne))
      exact le_antisymm hle hge

theorem fmin?_union {V : Type} [LinearOrder V] [DecidableEq V] (s t : Finset V) :
    fmin? (s ∪ t) = optMin (fmin? s) (fmin? t) := by
  rcases hs : fmin? s with _ | a
  · rw [fmin?_eq_none_iff.mp hs]
    simp [optMin]
  · rcases ht : fmin? t with _ | b
    · rw [fmin?_eq_none_iff.mp ht]
      simp [optMin, hs]
    · have hsne : s.Nonempty := by
        by_contra hc
        rw [Finset.not_nonempty_iff_eq_empty.mp hc, fmin?_empty] at hs
        exact absurd hs (by simp)
      have htne : t.Nonempty := by
        by_contra hc
        rw [Finset.not_nonempty_iff_eq_empty.mp hc, fmin?_empty] at ht
        exact absurd ht (by simp)
      have ha : s.min' hsne = a := by
        rw [fmin?, dif_pos hsne] at hs
        exact Option.some.inj hs
      have hb : t.min' htne = b := by
        rw [fmin?, dif_pos htne] at ht
        exact Option.some.inj ht
      have hune : (s ∪ t).Nonempty := Finset.Nonempty.inl hsne
      rw [fmin?, dif_pos hune]
      simp only [optMin, Option.some.injEq]
      have hle : (s ∪ t).min' hune ≤ a ⊓ b := by
        apply le_inf
        · exact Finset.min'_le _ a (Finset.mem_union_left _ (ha ▸ Finset.min'_mem s hsne))
        · exact Finset.min'_le _ b (Finset.mem_union_right _ (hb ▸ Finset.min'_mem t htne))
      have hge : a ⊓ b ≤ (s ∪ t).min' hune := by
        apply Finset.le_min'
        intro y hy
        rcases Finset.mem_union.mp hy with hy | hy
        · exact inf_le_of_left_le (ha ▸ Finset.min'_le s y hy)
        · exact inf_le_of_right_le (hb ▸ Finset.min'_le t y hy)
      exact le_antisymm hle hge

/-- Operator classes contributed by a kept lower-bound selector:
`(ge class, gt class)`. -/
def gContrib {V : Type} : Option (Cmp × V) → Finset V × Finset V
  | some (Cmp.ge, w) => ({w}, ∅)
  | some (Cmp.gt, v) => (∅, {v})
  | _ => (∅, ∅)

/-- Operator classes contributed by a kept upper-bound selector:
`(le class, lt class)`. -/
def lContrib {V : Type} : Option (Cmp × V) → Finset V × Finset V
  | some (Cmp.le, w) => ({w}, ∅)
  | some (Cmp.lt, v) => (∅, {v})
  | _ => (∅, ∅)

theorem lowerSel_absorb_ge {V : Type} [LinearOrder V] {w m : V} (h : w ≤ m)
    (u : Option V) :
    lowerSel u (some m) = lowerSel (optMax (some w) u) (some m) := by
  rcases u with _ | u'
  · simp [lowerSel, optMax, h]
  · simp only [lowerSel, optMax]
    by_cases hm : u' ≤ m
    · rw [if_pos hm, if_pos (sup_le h hm)]
    · rw [if_neg hm, if_neg (fun hc => hm (le_trans le_sup_right hc))]
      have : w ⊔ u' = u' := sup_eq_right.mpr (h.trans (le_of_lt (not_le.mp hm)))
      rw [this]

theorem lowerSel_absorb_gt {V : Type} [LinearOrder V] {t W : V} (h : t < W)
    (s : Option V) :
    lowerSel (some W) s = lowerSel (some W) (optMax (some t) s) := by
  rcases s with _ | s'
  · simp [lowerSel, optMax, not_le.mpr h]
  · simp only [lowerSel, optMax]
    by_cases hs : W ≤ s'
    · rw [if_pos hs, if_pos (le_sup_of_le_right hs)]
      have : t ⊔ s' = s' := sup_eq_right.mpr ((le_of_lt h).trans hs)
      rw [this]
    · rw [if_neg hs, if_neg]
      intro hc
      rcases le_sup_iff.mp hc with hc | hc
      · exact absurd hc (not_le.mpr h)
      · exact hs hc

theorem upperSel_absorb_le {V : Type} [LinearOrder V] {w m : V} (h : m ≤ w)
    (u : Option V) :
    upperSel u (some m) = upperSel (optMin (some w) u) (some m) := by
  rcases u with _ | u'
  · simp [upperSel, optMin, not_lt.mpr h]
  · simp only [upperSel, optMin]
    by_cases hm : u' < m
    · rw [if_pos hm, if_pos (inf_lt_of_right_lt hm)]
      have : w ⊓ u' = u' := inf_eq_right.mpr ((le_of_lt hm).trans h)
      rw [this]
    · rw [if_neg hm, if_neg]
      intro hc
      rcases inf_lt_iff.mp hc with hc | hc
      · exact absurd hc (not_lt.mpr h)
      · exact hm hc

theorem upperSel_absorb_lt {V : Type} [LinearOrder V] {t W : V} (h : W < t)
    (s : Option V) :
    upperSel (some W) s = upperSel (some W) (optMin (some t) s) := by
  rcases s with _ | s'
  · simp [upperSel, optMin, h]
  · simp only [upperSel, optMin]
    by_cases hs : W < s'
    · rw [if_pos hs, if_pos (lt_inf_iff.mpr ⟨h, hs⟩)]
    · rw [if_neg hs, if_neg (fun hc => hs (lt_of_lt_of_le hc inf_le_right))]
      have : t ⊓ s' = s' := inf_eq_right.mpr (le_of_lt (lt_of_le_of_lt (not_lt.mp hs) h))
      rw [this]

theorem optMax_none_left {V : Type} [LinearOrder V] (u : Option V) :
    optMax none u = u := rfl

theorem optMin_none_left {V : Type} [LinearOrder V] (u : Option V) :
    optMin none u = u := rfl

/-- Stability of the kept lower bound: replacing lower-bound classes
`(geA, gtA)` by the classes of the selector they canonicalize to does not
change the selector kept for the union with any other classes. -/
theorem gSel_stable {V : Type} [LinearOrder V] [DecidableEq V]
    (geA gtA geB gtB : Finset V) (g : Option (Cmp × V))
    (hgdef : g = lowerSel (fmax? geA) (fmax? gtA)) :
    lowerSel (fmax? ((gContrib g).1 ∪ geB)) (fmax? ((gContrib g).2 ∪ gtB)) =
      lowerSel (fmax? (geA ∪ geB)) (fmax? (gtA ∪ gtB)) := by
  subst hgdef
  rw [fmax?_union geA geB, fmax?_union gtA gtB]
  rcases hge : fmax? geA with _ | w <;> rcases hgt : fmax? gtA with _ | t
  · simp [lowerSel, gContrib, optMax_none_left, fmax?_union, fmax?_empty]
  · simp [lowerSel, gContrib, fmax?_union, fmax?_singleton, fmax?_empty,
      optMax_none_left]
  · simp [lowerSel, gContrib, fmax?_union, fmax?_singleton, fmax?_empty,
      optMax_none_left]
  · simp only [lowerSel]
    by_cases hwt : w ≤ t
    · rw [if_pos hwt]
      simp only [gContrib, fmax?_union, fmax?_singleton, fmax?_empty,
        optMax_none_left]
      rcases fmax? gtB with _ | s
      · exact lowerSel_absorb_ge hwt (fmax? geB)
      · exact lowerSel_absorb_ge (le_trans hwt le_sup_left) (fmax? geB)
    · rw [if_neg hwt]
      have htw : t < w := not_le.mp hwt
      simp only [gContrib, fmax?_union, fmax?_singleton, fmax?_empty,
        optMax_none_left]
      rcases hgeB : fmax? geB with _ | u
      · exact lowerSel_absorb_gt htw (fmax? gtB)
      · exact lowerSel_absorb_gt (lt_of_lt_of_le htw le_sup_left) (fmax? gtB)

/-- Stability of the kept upper bound, the order dual of `gSel_stable`. -/
theorem lSel_stable {V : Type} [LinearOrder V] [DecidableEq V]
    (leA ltA leB ltB : Finset V) (l : Option (Cmp × V))
    (hldef : l = upperSel (fmin? leA) (fmin? ltA)) :
    upperSel (fmin? ((lContrib l).1 ∪ leB)) (fmin? ((lContrib l).2 ∪ ltB)) =
      upperSel (fmin? (leA ∪ leB)) (fmin? (ltA ∪ ltB)) := by
  subst hldef
  rw [fmin?_union leA leB, fmin?_union ltA ltB]
  rcases hle : fmin? leA with _ | w <;> rcases hlt : fmin? ltA with _ | t
  · simp [upperSel, lContrib, optMin_none_left, fmin?_union, fmin?_empty]
  · simp [upperSel, lContrib, fmin?_union, fmin?_singleton, fmin?_empty,
      optMin_none_left]
  · simp [upperSel, lContrib, fmin?_union, fmin?_singleton, fmin?_empty,
      optMin_none_left]
  · simp only [upperSel]
    by_cases hwt : w < t
    · rw [if_pos hwt]
      simp only [lContrib, fmin?_union, fmin?_singleton, fmin?_empty,
        optMin_none_left]
      rcases hleB : fmin? leB with _ | u
      · exact upperSel_absorb_lt hwt (fmin? ltB)
      · exact upperSel_absorb_lt (lt_of_le_of_lt inf_le_left hwt) (fmin? ltB)
    · rw [if_neg hwt]
      have htw : t ≤ w := not_lt.mp hwt
      simp only [lContrib, fmin?_union, fmin?_singleton, fmin?_empty,
        optMin_none_left]
      rcases fmin? ltB with _ | s
      · exact upperSel_absorb_le htw (fmin? leB)
      · exact upperSel_absorb_le (le_trans inf_le_left htw) (fmin? leB)

/-! ### Inversion lemmas for the canonicalization pipeline -/

theorem lowerSel_eq_none {V : Type} [LinearOrder V] {a b : Option V}
    (h : lowerSel a b = none) : a = none ∧ b = none := by
  rcases a with _ | a <;> rcases b with _ | b <;>
    simp only [lowerSel] at h <;> first
    | exact ⟨rfl, rfl⟩
    | exact absurd h (by split <;> simp)
    | exact absurd h (by simp)

theorem upperSel_eq_none {V : Type} [LinearOrder V] {a b : Option V}
    (h : upperSel a b = none) : a = none ∧ b = none := by
  rcases a with _ | a <;> rcases b with _ | b <;>
    simp only [upperSel] at h <;> first
    | exact ⟨rfl, rfl⟩
    | exact absurd h (by split <;> simp)
    | exact absurd h (by simp)

theorem lowerSel_shape {V : Type} [LinearOrder V] {a b : Option V}
    {p : Cmp × V} (h : lowerSel a b = some p) : p.1 = Cmp.gt ∨ p.1 = Cmp.ge := by
  rcases a with _ | a <;> rcases b with _ | b <;> simp only [lowerSel] at h
  · exact absurd h (by simp)
  · cases h; exact Or.inl rfl
  · cases h; exact Or.inr rfl
  · split at h <;> cases h
    · exact Or.inl rfl
    · exact Or.inr rfl

theorem upperSel_shape {V : Type} [LinearOrder V] {a b : Option V}
    {p : Cmp × V} (h : upperSel a b = some p) : p.1 = Cmp.lt ∨ p.1 = Cmp.le := by
  rcases a with _ | a <;> rcases b with _ | b <;> simp only [upperSel] at h
  · exact absurd h (by simp)
  · cases h; exact Or.inl rfl
  · cases h; exact Or.inr rfl
  · split at h <;> cases h
    · exact Or.inr rfl
    · exact Or.inl rfl

theorem lowerSel_eq_some_ge {V : Type} [LinearOrder V] {a b : Option V} {w : V}
    (h : lowerSel a b = some (Cmp.ge, w)) :
    a = some w ∧ (b = none ∨ ∃ t, b = some t ∧ t < w) := by
  rcases a with _ | a <;> rcases b with _ | b <;> simp only [lowerSel] at h
  · exact absurd h (by simp)
  · exact absurd h (by simp)
  · cases h
    exact ⟨rfl, Or.inl rfl⟩
  · split at h
    · exact absurd h (by simp)
    · rename_i hab
      cases h
      exact ⟨rfl, Or.inr ⟨b, rfl, not_le.mp hab⟩⟩

theorem lowerSel_eq_some_gt {V : Type} [LinearOrder V] {a b : Option V} {t : V}
    (h : lowerSel a b = some (Cmp.gt, t)) :
    b = some t ∧ (a = none ∨ ∃ w, a = some w ∧ w ≤ t) := by
  rcases a with _ | a <;> rcases b with _ | b <;> simp only [lowerSel] at h
  · exact absurd h (by simp)
  · cases h
    exact ⟨rfl, Or.inl rfl⟩
  · exact absurd h (by simp)
  · split at h
    · rename_i hab
      cases h
      exact ⟨rfl, Or.inr ⟨a, rfl, hab⟩⟩
    · exact absurd h (by simp)

theorem upperSel_eq_some_le {V : Type} [LinearOrder V] {a b : Option V} {w : V}
    (h : upperSel a b = some (Cmp.le, w)) :
    a = some w ∧ (b = none ∨ ∃ t, b = some t ∧ w < t) := by
  rcases a with _ | a <;> rcases b with _ | b <;> simp only [upperSel] at h
  · exact absurd h (by simp)
  · exact absurd h (by simp)
  · cases h
    exact ⟨rfl, Or.inl rfl⟩
  · split at h
    · rename_i hab
      cases h
      exact ⟨rfl, Or.inr ⟨b, rfl, hab⟩⟩
    · exact absurd h (by simp)

theorem upperSel_eq_some_lt {V : Type} [LinearOrder V] {a b : Option V} {t : V}
    (h : upperSel a b = some (Cmp.lt, t)) :
    b = some t ∧ (a = none ∨ ∃ w, a = some w ∧ t ≤ w) := by
  rcases a with _ | a <;> rcases b with _ | b <;> simp only [upperSel] at h
  · exact absurd h (by simp)
  · cases h
    exact ⟨rfl, Or.inl rfl⟩
  · exact absurd h (by simp)
  · split at h
    · exact absurd h (by simp)
    · rename_i hab
      cases h
      exact ⟨rfl, Or.inr ⟨a, rfl, not_lt.mp hab⟩⟩

theorem combineBounds_ok {V : Type} [LinearOrder V] {g l g' l' : Option (Cmp × V)}
    {extra : Option V} (h : combineBounds g l = .ok (g', l', extra)) :
    (extra = none ∧ g' = g ∧ l' = l) ∨
      (∃ u, extra = some u ∧ g' = none ∧ l' = none ∧
        g = some (Cmp.ge, u) ∧ l = some (Cmp.le, u)) := by
  rcases g with _ | ⟨gop, gv⟩ <;> rcases l with _ | ⟨lop, lv⟩ <;>
    simp only [combineBounds] at h
  · cases h; exact Or.inl ⟨rfl, rfl, rfl⟩
  · cases h; exact Or.inl ⟨rfl, rfl, rfl⟩
  · cases h; exact Or.inl ⟨rfl, rfl, rfl⟩
  · split at h
    · rename_i hgv
      split at h
      · rename_i hops
        cases h
        exact Or.inr ⟨lv, rfl, rfl, rfl, by rw [hops.1, hgv], by rw [hops.2]⟩
      · exact absurd h (by simp)
    · split at h
      · exact absurd h (by simp)
      · cases h
        exact Or.inl ⟨rfl, rfl, rfl⟩

theorem eqResolve_eq_some {V : Type} [LinearOrder V] {s : Finset V} {v : V}
    (h : eqResolve s = .ok (some v)) : s = {v} := by
  rw [eqResolve] at h
  split at h
  · rename_i hcard
    rcases Finset.card_eq_one.mp hcard with ⟨a, rfl⟩
    rw [fmin?_singleton] at h
    simp only [Except.ok.injEq, Option.some.injEq] at h
    rw [h]
  · split at h
    · exact absurd h (by simp)
    · exact absurd h (by simp)

theorem eqResolve_eq_none {V : Type} [LinearOrder V] {s : Finset V}
    (h : eqResolve s = .ok none) : s = ∅ := by
  rw [eqResolve] at h
  split at h
  · rename_i hcard
    rcases Finset.card_eq_one.mp hcard with ⟨a, rfl⟩
    rw [fmin?_singleton] at h
    exact absurd h (by simp)
  · split at h
    · exact absurd h (by simp)
    · rename_i h1 h2
      have : s.card = 0 := by omega
      exact Finset.card_eq_zero.mp this

theorem eqResolve_singleton {V : Type} [LinearOrder V] (v : V) :
    eqResolve ({v} : Finset V) = .ok (some v) := by
  rw [eqResolve, if_pos (Finset.card_singleton v), fmin?_singleton]

/-- Operator classes of the selector list produced by the bounds-only branch
of canonicalization. -/
theorem classVers_selLists {V : Type} [LinearOrder V] [DecidableEq V]
    (g l : Option (Cmp × V))
    (hg : ∀ p, g = some p → p.1 = Cmp.gt ∨ p.1 = Cmp.ge)
    (hl : ∀ p, l = some p → p.1 = Cmp.lt ∨ p.1 = Cmp.le) :
    classVers Cmp.ge (g.toList ++ l.toList) = (gContrib g).1 ∧
      classVers Cmp.gt (g.toList ++ l.toList) = (gContrib g).2 ∧
      classVers Cmp.le (g.toList ++ l.toList) = (lContrib l).1 ∧
      classVers Cmp.lt (g.toList ++ l.toList) = (lContrib l).2 ∧
      classVers Cmp.eq (g.toList ++ l.toList) = ∅ := by
  rcases g with _ | ⟨gop, gv⟩
  · rcases l with _ | ⟨lop, lv⟩
    · simp [classVers, gContrib, lContrib, Option.toList]
    · rcases hl (lop, lv) rfl with h | h <;> cases h <;>
        simp [classVers, gContrib, lContrib, Option.toList]
  · rcases hg (gop, gv) rfl with hgop | hgop <;> cases hgop <;>
      rcases l with _ | ⟨lop, lv⟩
    · simp [classVers, gContrib, lContrib, Option.toList]
    · rcases hl (lop, lv) rfl with h | h <;> cases h <;>
        simp [classVers, gContrib, lContrib, Option.toList]
    · simp [classVers, gContrib, lContrib, Option.toList]
    · rcases hl (lop, lv) rfl with h | h <;> cases h <;>
        simp [classVers, gContrib, lContrib, Option.toList]

/-- Absorption, bounds-only case: if `A` canonicalizes to its kept bounds
(no `==` class), merging the canonical form with `B` agrees with merging `A`
itself with `B`. -/
theorem canon_absorb_bounds {V : Type} [LinearOrder V] [DecidableEq V]
    (A B R : List (Cmp × V)) (hE : classVers Cmp.eq A = ∅)
    (hAB : removeUselessVersionSelectors
        (((gSel A).toList ++ (lSel A).toList) ++ B) = .ok R) :
    removeUselessVersionSelectors (A ++ B) = .ok R := by
  have hgshape : ∀ p, gSel A = some p → p.1 = Cmp.gt ∨ p.1 = Cmp.ge :=
    fun p hp => lowerSel_shape hp
  have hlshape : ∀ p, lSel A = some p → p.1 = Cmp.lt ∨ p.1 = Cmp.le :=
    fun p hp => upperSel_shape hp
  obtain ⟨c1, c2, c3, c4, c5⟩ := classVers_selLists (gSel A) (lSel A) hgshape hlshape
  rw [rUVS_eq_canonOf] at hAB ⊢
  have hG : gSel (((gSel A).toList ++ (lSel A).toList) ++ B) = gSel (A ++ B) := by
    rw [gSel_def (((gSel A).toList ++ (lSel A).toList) ++ B),
      classVers_append Cmp.ge ((gSel A).toList ++ (lSel A).toList) B,
      classVers_append Cmp.gt ((gSel A).toList ++ (lSel A).toList) B, c1, c2,
      gSel_def (A ++ B), classVers_append Cmp.ge A B, classVers_append Cmp.gt A B]
    exact gSel_stable (classVers Cmp.ge A) (classVers Cmp.gt A)
      (classVers Cmp.ge B) (classVers Cmp.gt B) (gSel A) (gSel_def A)
  have hL : lSel (((gSel A).toList ++ (lSel A).toList) ++ B) = lSel (A ++ B) := by
    rw [lSel_def (((gSel A).toList ++ (lSel A).toList) ++ B),
      classVers_append Cmp.le ((gSel A).toList ++ (lSel A).toList) B,
      classVers_append Cmp.lt ((gSel A).toList ++ (lSel A).toList) B, c3, c4,
      lSel_def (A ++ B), classVers_append Cmp.le A B, classVers_append Cmp.lt A B]
    exact lSel_stable (classVers Cmp.le A) (classVers Cmp.lt A)
      (classVers Cmp.le B) (classVers Cmp.lt B) (lSel A) (lSel_def A)
  have hEq : classVers Cmp.eq (((gSel A).toList ++ (lSel A).toList) ++ B) =
      classVers Cmp.eq (A ++ B) := by
    rw [classVers_append Cmp.eq ((gSel A).toList ++ (lSel A).toList) B, c5,
      classVers_append Cmp.eq A B, hE]
  rw [hG, hL, hEq] at hAB
  exact hAB

theorem classVers_eq_single_ge {V : Type} [LinearOrder V] [DecidableEq V] (v : V) :
    classVers Cmp.ge [(Cmp.eq, v)] = (∅ : Finset V) := by simp [classVers]

theorem classVers_eq_single_gt {V : Type} [LinearOrder V] [DecidableEq V] (v : V) :
    classVers Cmp.gt [(Cmp.eq, v)] = (∅ : Finset V) := by simp [classVers]

theorem classVers_eq_single_le {V : Type} [LinearOrder V] [DecidableEq V] (v : V) :
    classVers Cmp.le [(Cmp.eq, v)] = (∅ : Finset V) := by simp [classVers]

theorem classVers_eq_single_lt {V : Type} [LinearOrder V] [DecidableEq V] (v : V) :
    classVers Cmp.lt [(Cmp.eq, v)] = (∅ : Finset V) := by simp [classVers]

theorem classVers_eq_single_eq {V : Type} [LinearOrder V] [DecidableEq V] (v : V) :
    classVers Cmp.eq [(Cmp.eq, v)] = ({v} : Finset V) := by simp [classVers]

/-- Absorption, pure-`==` case: `A` consists (up to canonicalization) of a
single `== v` with no bounds at all. -/
theorem canon_absorb_pure_eq {V : Type} [LinearOrder V] [DecidableEq V]
    (A B R : List (Cmp × V)) (v : V)
    (hg : gSel A = none) (hl : lSel A = none) (hE : classVers Cmp.eq A = {v})
    (hAB : removeUselessVersionSelectors ([(Cmp.eq, v)] ++ B) = .ok R) :
    removeUselessVersionSelectors (A ++ B) = .ok R := by
  have h0 := lowerSel_eq_none ((gSel_def A).symm.trans hg)
  have h1 := upperSel_eq_none ((lSel_def A).symm.trans hl)
  have hgeA : classVers Cmp.ge A = ∅ := fmax?_eq_none_iff.mp h0.1
  have hgtA : classVers Cmp.gt A = ∅ := fmax?_eq_none_iff.mp h0.2
  have hleA : classVers Cmp.le A = ∅ := fmin?_eq_none_iff.mp h1.1
  have hltA : classVers Cmp.lt A = ∅ := fmin?_eq_none_iff.mp h1.2
  rw [rUVS_eq_canonOf] at hAB ⊢
  have hG : gSel ([(Cmp.eq, v)] ++ B) = gSel (A ++ B) := by
    rw [gSel_def ([(Cmp.eq, v)] ++ B), gSel_def (A ++ B),
      classVers_append Cmp.ge [(Cmp.eq, v)] B, classVers_append Cmp.gt [(Cmp.eq, v)] B,
      classVers_append Cmp.ge A B, classVers_append Cmp.gt A B,
      classVers_eq_single_ge, classVers_eq_single_gt, hgeA, hgtA]
  have hL : lSel ([(Cmp.eq, v)] ++ B) = lSel (A ++ B) := by
    rw [lSel_def ([(Cmp.eq, v)] ++ B), lSel_def (A ++ B),
      classVers_append Cmp.le [(Cmp.eq, v)] B, classVers_append Cmp.lt [(Cmp.eq, v)] B,
      classVers_append Cmp.le A B, classVers_append Cmp.lt A B,
      classVers_eq_single_le, classVers_eq_single_lt, hleA, hltA]
  have hEq : classVers Cmp.eq ([(Cmp.eq, v)] ++ B) = classVers Cmp.eq (A ++ B) := by
    rw [classVers_append Cmp.eq [(Cmp.eq, v)] B, classVers_append Cmp.eq A B,
      classVers_eq_single_eq, hE]
  rw [hG, hL, hEq] at hAB
  exact hAB

/-- Absorption, collapsed-bounds case: `A` canonicalizes to `== v` obtained
from the pair `>= v, <= v` (its `==` class, if any, already agreeing on
`v`). -/
theorem canon_absorb_collapse {V : Type} [LinearOrder V] [DecidableEq V]
    (A B R : List (Cmp × V)) (v : V)
    (hg : gSel A = some (Cmp.ge, v)) (hl : lSel A = some (Cmp.le, v))
    (hE : classVers Cmp.eq A ⊆ {v})
    (hAB : removeUselessVersionSelectors ([(Cmp.eq, v)] ++ B) = .ok R) :
    removeUselessVersionSelectors (A ++ B) = .ok R := by
  obtain ⟨hgeA, hgtA⟩ := lowerSel_eq_some_ge ((gSel_def A).symm.trans hg)
  obtain ⟨hleA, hltA⟩ := upperSel_eq_some_le ((lSel_def A).symm.trans hl)
  rw [rUVS_eq_canonOf] at hAB
  have hGB : gSel ([(Cmp.eq, v)] ++ B) = gSel B := by
    rw [gSel_def ([(Cmp.eq, v)] ++ B), classVers_append Cmp.ge [(Cmp.eq, v)] B,
      classVers_append Cmp.gt [(Cmp.eq, v)] B, classVers_eq_single_ge,
      classVers_eq_single_gt, Finset.empty_union, Finset.empty_union, gSel_def B]
  have hLB : lSel ([(Cmp.eq, v)] ++ B) = lSel B := by
    rw [lSel_def ([(Cmp.eq, v)] ++ B), classVers_append Cmp.le [(Cmp.eq, v)] B,
      classVers_append Cmp.lt [(Cmp.eq, v)] B, classVers_eq_single_le,
      classVers_eq_single_lt, Finset.empty_union, Finset.empty_union, lSel_def B]
  have hEB : classVers Cmp.eq ([(Cmp.eq, v)] ++ B) = {v} ∪ classVers Cmp.eq B := by
    rw [classVers_append Cmp.eq [(Cmp.eq, v)] B, classVers_eq_single_eq]
  rw [hGB, hLB, hEB, canonOf] at hAB
  split at hAB
  · exact absurd hAB (by simp)
  · rename_i res g' l' extra hcb
    split at hAB
    · exact absurd hAB (by simp)
    · rename_i heqres w heqr
      split at hAB
      · exact absurd hAB (by simp)
      · rename_i hnotsome
        simp only [Except.ok.injEq] at hAB
        have hg' : g' = none := by
          rcases g' with _ | p
          · rfl
          · exact absurd (Or.inl rfl) hnotsome
        have hl' : l' = none := by
          rcases l' with _ | p
          · rfl
          · exact absurd (Or.inr rfl) hnotsome
        have hset := eqResolve_eq_some heqr
        have hvw : v = w := by
          have hmem : v ∈ ({w} : Finset V) := by
            rw [← hset]
            exact Finset.mem_union_left _
              (Finset.mem_union_left _ (Finset.mem_singleton_self v))
          exact Finset.mem_singleton.mp hmem
        subst hvw
        subst hAB
        have hEBsub : classVers Cmp.eq B ⊆ {v} := by
          intro x hx
          rw [← hset]
          exact Finset.mem_union_left _ (Finset.mem_union_right _ hx)
        rcases combineBounds_ok hcb with ⟨hex, hgg, hll⟩ | ⟨u, hex, _, _, hgB, hlB⟩
        · -- `B` contributes no bounds at all.
          rw [hg'] at hgg
          rw [hl'] at hll
          obtain ⟨hgeB, hgtB⟩ := lowerSel_eq_none ((gSel_def B).symm.trans hgg.symm)
          obtain ⟨hleB, hltB⟩ := upperSel_eq_none ((lSel_def B).symm.trans hll.symm)
          have hgAB : gSel (A ++ B) = some (Cmp.ge, v) := by
            rw [gSel_def (A ++ B), classVers_append Cmp.ge A B,
              classVers_append Cmp.gt A B, fmax?_eq_none_iff.mp hgeB,
              fmax?_eq_none_iff.mp hgtB, Finset.union_empty, Finset.union_empty,
              hgeA]
            rcases hgtA with h1 | ⟨t1, h1, hlt1⟩ <;> rw [h1]
            · rfl
            · simp [lowerSel, not_le_of_gt hlt1]
          have hlAB : lSel (A ++ B) = some (Cmp.le, v) := by
            rw [lSel_def (A ++ B), classVers_append Cmp.le A B,
              classVers_append Cmp.lt A B, fmin?_eq_none_iff.mp hleB,
              fmin?_eq_none_iff.mp hltB, Finset.union_empty, Finset.union_empty,
              hleA]
            rcases hltA with h1 | ⟨t1, h1, hlt1⟩ <;> rw [h1]
            · rfl
            · simp [upperSel, hlt1]
          have hunion : (classVers Cmp.eq A ∪ classVers Cmp.eq B) ∪ ({v} : Finset V)
              = {v} := by
            apply Finset.Subset.antisymm
            · exact Finset.union_subset (Finset.union_subset hE hEBsub)
                (Finset.Subset.refl _)
            · exact Finset.subset_union_right
          rw [rUVS_eq_canonOf, hgAB, hlAB, canonOf]
          simp only [combineBounds, if_pos rfl, and_self, if_true,
            classVers_append Cmp.eq A B]
          rw [hunion, eqResolve_singleton]
          simp
        · -- `B` also collapses to `== v`.
          have hu : u = v := by
            rw [hex] at hset
            have hmem : u ∈ ({v} : Finset V) := by
              rw [← hset]
              simp
            exact Finset.mem_singleton.mp hmem
          subst hu
          obtain ⟨hgeB, hgtB⟩ := lowerSel_eq_some_ge ((gSel_def B).symm.trans hgB)
          obtain ⟨hleB, hltB⟩ := upperSel_eq_some_le ((lSel_def B).symm.trans hlB)
          have hgAB : gSel (A ++ B) = some (Cmp.ge, u) := by
            rw [gSel_def (A ++ B), classVers_append Cmp.ge A B,
              classVers_append Cmp.gt A B, fmax?_union, fmax?_union, hgeA, hgeB]
            rcases hgtA with h1 | ⟨t1, h1, hlt1⟩ <;>
              rcases hgtB with h2 | ⟨t2, h2, hlt2⟩ <;> rw [h1, h2] <;>
              simp only [optMax, sup_idem]
            · rfl
            · simp [lowerSel, not_le_of_gt hlt2]
            · simp [lowerSel, not_le_of_gt hlt1]
            · simp [lowerSel, not_le_of_gt (sup_lt_iff.mpr ⟨hlt1, hlt2⟩)]
          have hlAB : lSel (A ++ B) = some (Cmp.le, u) := by
            rw [lSel_def (A ++ B), classVers_append Cmp.le A B,
              classVers_append Cmp.lt A B, fmin?_union, fmin?_union, hleA, hleB]
            rcases hltA with h1 | ⟨t1, h1, hlt1⟩ <;>
              rcases hltB with h2 | ⟨t2, h2, hlt2⟩ <;> rw [h1, h2] <;>
              simp only [optMin, inf_idem]
            · rfl
            · simp [upperSel, hlt2]
            · simp [upperSel, hlt1]
            · simp [upperSel, lt_inf_iff.mpr ⟨hlt1, hlt2⟩]
          have hunion : (classVers Cmp.eq A ∪ classVers Cmp.eq B) ∪ ({u} : Finset V)
              = {u} := by
            apply Finset.Subset.antisymm
            · exact Finset.union_subset (Finset.union_subset hE hEBsub)
                (Finset.Subset.refl _)
            · exact Finset.subset_union_right
          rw [rUVS_eq_canonOf, hgAB, hlAB, canonOf]
          simp only [combineBounds, if_pos rfl, and_self, if_true,
            classVers_append Cmp.eq A B]
          rw [hunion, eqResolve_singleton]
          simp
    · rename_i heqres heqr
      have hempty := eqResolve_eq_none heqr
      have hmem : v ∈ (∅ : Finset V) := by
        rw [← hempty]
        exact Finset.mem_union_left _
          (Finset.mem_union_left _ (Finset.mem_singleton_self v))
      exact absurd hmem (Finset.not_mem_empty v)

/-- Absorption: canonicalizing a list `A` first and then merging the result
with `B` succeeds with the same outcome as canonicalizing `A ++ B`
directly, whenever the former succeeds. -/
theorem canon_absorb {V : Type} [LinearOrder V] [DecidableEq V]
    (A A' B R : List (Cmp × V))
    (hA : removeUselessVersionSelectors A = .ok A')
    (hAB : removeUselessVersionSelectors (A' ++ B) = .ok R) :
    removeUselessVersionSelectors (A ++ B) = .ok R := by
  rw [rUVS_eq_canonOf, canonOf] at hA
  split at hA
  · exact absurd hA (by simp)
  · rename_i res g' l' extra hcb
    split at hA
    · exact absurd hA (by simp)
    · rename_i heqres w heqr
      split at hA
      · exact absurd hA (by simp)
      · rename_i hnotsome
        simp only [Except.ok.injEq] at hA
        have hg' : g' = none := by
          rcases g' with _ | p
          · rfl
          · exact absurd (Or.inl rfl) hnotsome
        have hl' : l' = none := by
          rcases l' with _ | p
          · rfl
          · exact absurd (Or.inr rfl) hnotsome
        subst hA
        rcases combineBounds_ok hcb with ⟨hex, hgg, hll⟩ | ⟨u, hex, _, _, hgA, hlA⟩
        · rw [hg'] at hgg
          rw [hl'] at hll
          subst hex
          have hset := eqResolve_eq_some heqr
          have hEA : classVers Cmp.eq A = {w} := by simpa using hset
          exact canon_absorb_pure_eq A B R w hgg.symm hll.symm hEA hAB
        · subst hex
          have hset := eqResolve_eq_some heqr
          have hu : u = w := by
            have hmem : u ∈ ({w} : Finset V) := by
              rw [← hset]
              exact Finset.mem_union_right _ (by simp)
            exact Finset.mem_singleton.mp hmem
          subst hu
          have hEAsub : classVers Cmp.eq A ⊆ {u} := by
            intro x hx
            rw [← hset]
            exact Finset.mem_union_left _ hx
          exact canon_absorb_collapse A B R u hgA hlA hEAsub hAB
    · rename_i heqres heqr
      simp only [Except.ok.injEq] at hA
      have hempty := eqResolve_eq_none heqr
      have hextra : extra = none := by
        rcases hex : extra with _ | u
        · rfl
        · rw [hex] at hempty
          have hmem : u ∈ (∅ : Finset V) := by
            rw [← hempty]
            exact Finset.mem_union_right _ (by simp)
          exact absurd hmem (Finset.not_mem_empty u)
      subst hextra
      rcases combineBounds_ok hcb with ⟨_, hgg, hll⟩ | ⟨u, hex, _, _, _, _⟩
      · have hEA : classVers Cmp.eq A = ∅ := by simpa using hempty
        rw [hgg, hll] at hA
        rw [← hA] at hAB
        exact canon_absorb_bounds A B R hEA hAB
      · exact absurd hex (by simp)

theorem rUVS_append_comm {V : Type} [LinearOrder V] [DecidableEq V]
    (xs ys : List (Cmp × V)) :
    removeUselessVersionSelectors (xs ++ ys) =
      removeUselessVersionSelectors (ys ++ xs) := by
  have h : ∀ c, classVers c (xs ++ ys) = classVers c (ys ++ xs) := fun c => by
    rw [classVers_append, classVers_append, Finset.union_comm]
  rw [rUVS_eq_canonOf, rUVS_eq_canonOf, gSel_def (xs ++ ys), gSel_def (ys ++ xs),
    lSel_def (xs ++ ys), lSel_def (ys ++ xs), h Cmp.ge, h Cmp.gt, h Cmp.le,
    h Cmp.lt, h Cmp.eq]

theorem reqAdd_ok {V : Type} [LinearOrder V] [DecidableEq V] {r1 r2 s : Req V}
    (h : reqAdd r1 r2 = .ok s) :
    removeUselessVersionSelectors (r1.versions ++ r2.versions) = .ok s.versions ∧
      s.platform = r1.platform ∧ s.name = r1.name ∧
      s.extras = r1.extras ∪ r2.extras := by
  rw [reqAdd] at h
  split at h
  · exact absurd h (by simp)
  · split at h
    · exact absurd h (by simp)
    · split at h
      · exact absurd h (by simp)
      · rename_i vs hvs
        simp only [Except.ok.injEq] at h
        subst h
        exact ⟨hvs, rfl, rfl, rfl⟩

theorem reqAdd_comm {V : Type} [LinearOrder V] [DecidableEq V] (r1 r2 : Req V)
    (hname : r1.name = r2.name) (hplat : r1.platform = r2.platform) :
    reqAdd r1 r2 = reqAdd r2 r1 := by
  rw [reqAdd, reqAdd, hname, hplat,
    rUVS_append_comm r1.versions r2.versions,
    Finset.union_comm r1.extras r2.extras]

theorem reqAdd_assoc {V : Type} [LinearOrder V] [DecidableEq V]
    (r1 r2 r3 s12 s23 t1 t2 : Req V)
    (h12 : reqAdd r1 r2 = .ok s12) (h123 : reqAdd s12 r3 = .ok t1)
    (h23 : reqAdd r2 r3 = .ok s23) (h231 : reqAdd r1 s23 = .ok t2) : t1 = t2 := by
  obtain ⟨v12, _, _, se12⟩ := reqAdd_ok h12
  obtain ⟨v123, tp1, tn1, te1⟩ := reqAdd_ok h123
  obtain ⟨v23, _, _, se23⟩ := reqAdd_ok h23
  obtain ⟨v231, tp2, tn2, te2⟩ := reqAdd_ok h231
  have hv1 : removeUselessVersionSelectors
      ((r1.versions ++ r2.versions) ++ r3.versions) = .ok t1.versions :=
    canon_absorb _ _ _ _ v12 v123
  have hv2' : removeUselessVersionSelectors (s23.versions ++ r1.versions) =
      .ok t2.versions :=
    (rUVS_append_comm s23.versions r1.versions).trans v231
  have hv2 : removeUselessVersionSelectors
      ((r2.versions ++ r3.versions) ++ r1.versions) = .ok t2.versions :=
    canon_absorb _ _ _ _ v23 hv2'
  have hperm : removeUselessVersionSelectors
      ((r1.versions ++ r2.versions) ++ r3.versions) =
      removeUselessVersionSelectors
        ((r2.versions ++ r3.versions) ++ r1.versions) := by
    have h : ∀ c, classVers c ((r1.versions ++ r2.versions) ++ r3.versions) =
        classVers c ((r2.versions ++ r3.versions) ++ r1.versions) := fun c => by
      rw [classVers_append, classVers_append, classVers_append, classVers_append,
        Finset.union_assoc]
      exact Finset.union_comm _ _
    rw [rUVS_eq_canonOf, rUVS_eq_canonOf,
      gSel_def ((r1.versions ++ r2.versions) ++ r3.versions),
      gSel_def ((r2.versions ++ r3.versions) ++ r1.versions),
      lSel_def ((r1.versions ++ r2.versions) ++ r3.versions),
      lSel_def ((r2.versions ++ r3.versions) ++ r1.versions),
      h Cmp.ge, h Cmp.gt, h Cmp.le, h Cmp.lt, h Cmp.eq]
  have hvers : t1.versions = t2.versions := by
    have := (hv1.symm.trans hperm).trans hv2
    simpa using this
  obtain ⟨p1, n1, e1, vv1⟩ := t1
  obtain ⟨p2, n2, e2, vv2⟩ := t2
  simp only at tp1 tn1 te1 tp2 tn2 te2 hvers
  simp only [Req.mk.injEq]
  obtain ⟨_, _, _, s12e⟩ := reqAdd_ok h12
  obtain ⟨_, _, _, s23e⟩ := reqAdd_ok h23
  obtain ⟨_, s12p, s12n, _⟩ := reqAdd_ok h12
  refine ⟨?_, ?_, ?_, hvers⟩
  · rw [tp1, tp2, s12p]
  · rw [tn1, tn2, s12n]
  · rw [te1, te2, s12e, s23e, Finset.union_assoc]

/-- C4: for requirements `r1, r2, r3` with the same name and platform whose
merges do not fail, requirement merging (`Requirement.__add__`) is
commutative (`r1 + r2 = r2 + r1`) and associative
(`(r1 + r2) + r3 = r1 + (r2 + r3)`).  Equality of requirements is equality
of the canonical components — platform, name, extras set, canonical
selector list — which are exactly what the canonical string form renders. -/
theorem reqAdd_comm_and_assoc {V : Type} [LinearOrder V] [DecidableEq V]
    (r1 r2 r3 s12 s23 t1 t2 : Req V)
    (hname : r1.name = r2.name) (hplat : r1.platform = r2.platform)
    (h12 : reqAdd r1 r2 = .ok s12) (h123 : reqAdd s12 r3 = .ok t1)
    (h23 : reqAdd r2 r3 = .ok s23) (h231 : reqAdd r1 s23 = .ok t2) :
    reqAdd r1 r2 = reqAdd r2 r1 ∧ t1 = t2 :=
  ⟨reqAdd_comm r1 r2 hname hplat,
    reqAdd_assoc r1 r2 r3 s12 s23 t1 t2 h12 h123 h23 h231⟩

/-- The wildcard platform value. -/
def anyPlat : Platform := Platform.mk "any" "any" "any"

/-- Concrete requirement `foo > 1` over natural-number versions. -/
def wreq1 : Req Nat := Req.mk anyPlat "foo" ∅ [(Cmp.gt, 1)]

/-- Concrete requirement `foo > 2, < 9`. -/
def wreq2 : Req Nat := Req.mk anyPlat "foo" ∅ [(Cmp.gt, 2), (Cmp.lt, 9)]

/-- Concrete requirement `foo < 8`. -/
def wreq3 : Req Nat := Req.mk anyPlat "foo" ∅ [(Cmp.lt, 8)]

/-- Merge of `wreq1` and `wreq2`: `foo > 2, < 9`. -/
def wreq12 : Req Nat := Req.mk anyPlat "foo" ∅ [(Cmp.gt, 2), (Cmp.lt, 9)]

/-- Merge of `wreq2` and `wreq3`: `foo > 2, < 8`. -/
def wreq23 : Req Nat := Req.mk anyPlat "foo" ∅ [(Cmp.gt, 2), (Cmp.lt, 8)]

/-- Merge of all three requirements: `foo > 2, < 8`. -/
def wreq123 : Req Nat := Req.mk anyPlat "foo" ∅ [(Cmp.gt, 2), (Cmp.lt, 8)]

/-- Witness for C4 at the concrete requirements `foo>1`, `foo>2,<9`,
`foo<8`: all four merges succeed, the merge commutes, and both
associations produce `foo>2,<8`. -/
theorem reqAdd_comm_and_assoc_witness :
    wreq1.name = wreq2.name ∧ wreq1.platform = wreq2.platform ∧
      reqAdd wreq1 wreq2 = .ok wreq12 ∧ reqAdd wreq12 wreq3 = .ok wreq123 ∧
      reqAdd wreq2 wreq3 = .ok wreq23 ∧ reqAdd wreq1 wreq23 = .ok wreq123 ∧
      (reqAdd wreq1 wreq2 = reqAdd wreq2 wreq1 ∧ wreq123 = wreq123) :=
  ⟨rfl, rfl, rfl, rfl, rfl, rfl,
    reqAdd_comm_and_assoc wreq1 wreq2 wreq3 wreq12 wreq23 wreq123 wreq123
      rfl rfl rfl rfl rfl rfl⟩

/-! ## The dependency solver (`src/ipkg/dependencies.py`, `Solver.solve`)

The solver state at the time `solve` runs is captured as a graph over node
indices: each node has a name (`node.obj.name`), the names of its
requirements (`node.requirements` keys), and its `dependents` list; each
requirement name has its global satisfier set
(`solver.requirements[name].satisfiers`, ordered as iterated) and
`dependency_selector` is an abstract choice function `sel`.  `installed`
marks nodes whose object is a `MetaPackage` (an already-installed
package). -/

structure SolverGraph where
  name : Nat → String
  reqs : Nat → List String
  dependents : Nat → List Nat
  satisfiers : String → List Nat
  sel : List Nat → Nat
  installed : Nat → Bool

/-- The dependency chosen for a requirement name in `solve` (lines 354-361):
error on an empty satisfier set is handled at the call site; a single
satisfier is taken directly (`list(node_set)[0]`), several go through the
selector. -/
def chosenDep (g : SolverGraph) (r : String) : Nat :=
  match g.satisfiers r with
  | [] => 0
  | [x] => x
  | x :: y :: rest => g.sel (x :: y :: rest)

/-- The `node_dependents` dictionary of `solve`. -/
abbrev Pend : Type := List (Nat × List Nat)

/-- Dictionary lookup in `node_dependents`. -/
def pendLookup (p : Pend) (d : Nat) : Option (List Nat) :=
  (List.find? (fun e => e.1 == d) p).map (fun e => e.2)

/-- Dictionary write `node_dependents[d] = l`. -/
def pendInsert : Pend → Nat → List Nat → Pend
  | [], d, l => [(d, l)]
  | e :: rest, d, l => if e.1 == d then (d, l) :: rest else e :: pendInsert rest d l

/-- Errors raised by `Solver.solve` / `Solver.find_best_dependencies`.
`noRoot` is the `IpkgException('Cannot find a node which is not a dependency
of other nodes (loop?)')` of line 339, `dependencyLoop` the `DependencyLoop`
of line 389, `unsatisfiedReq` the `IpkgException('Unsatisfied requirement')`
of line 356, `reqNotFound` the two `find_best_dependencies` raises (lines
287, 293), and `fuel` models non-termination of the Python loop. -/
inductive SolveErr
  | noRoot
  | dependencyLoop
  | unsatisfiedReq (r : String)
  | reqNotFound (r : String)
  | fuel
deriving DecidableEq, Repr

/-- Processing of one requirement of the node popped from the queue
(`solve` lines 349-382): pick the dependency from the global satisfier set,
initialize its pending-dependents entry on first sight from
`dependency.dependents`, drop the dependents whose name equals the current
node's name, and append the dependency to the queue when the entry is
empty. -/
def stepReq (g : SolverGraph) (nodeName : String) (st : List Nat × Pend)
    (r : String) : Except SolveErr (List Nat × Pend) :=
  if (g.satisfiers r).isEmpty then .error (.unsatisfiedReq r)
  else
    let d := chosenDep g r
    let cur := (pendLookup st.2 d).getD (g.dependents d)
    let cur2 := cur.filter (fun x => !(g.name x == nodeName))
    let pend2 := pendInsert st.2 d cur2
    if cur2.isEmpty then .ok (st.1 ++ [d], pend2) else .ok (st.1, pend2)

/-- The `for requirement in node.requirements` loop of `solve`. -/
def procReqs (g : SolverGraph) (nodeName : String) :
    List String → List Nat × Pend → Except SolveErr (List Nat × Pend)
  | [], st => .ok st
  | r :: rest, st =>
    match stepReq g nodeName st r with
    | .error e => .error e
    | .ok st2 => procReqs g nodeName rest st2

/-- The `while queue` loop of `solve` (lines 344-385): pop the head, append
it to `sorted_nodes`, process its requirements.  `fuel` bounds the number of
iterations (the Python loop can run forever on degenerate graphs). -/
def solveLoop (g : SolverGraph) :
    Nat → List Nat → List Nat → Pend → Except SolveErr (List Nat × Pend)
  | 0, _, _, _ => .error .fuel
  | _ + 1, [], sorted, pend => .ok (sorted, pend)
  | fuel + 1, node :: rest, sorted, pend =>
    match procReqs g (g.name node) (g.reqs node) (rest, pend) with
    | .error e => .error e
    | .ok st => solveLoop g fuel st.1 (sorted ++ [node]) st.2

/-- Shallow embedding of `Solver.solve` (lines 305-399) over the considered
node list (`self.nodes`, or target plus its best dependencies): seed the
queue with the nodes free of dependents, fail when there is none, run the
loop, fail with `DependencyLoop` when a pending-dependents entry is
nonempty at termination, and return the reverse of the processed order,
omitting installed packages when `ignore_installed_packages` is set. -/
def solve (g : SolverGraph) (nodes : List Nat) (fuel : Nat)
    (ignoreInstalled : Bool) : Except SolveErr (List Nat) :=
  let roots := nodes.filter (fun n => (g.dependents n).isEmpty)
  if roots.isEmpty then .error .noRoot
  else
    match solveLoop g fuel roots [] [] with
    | .error e => .error e
    | .ok (sorted, pend) =>
      if pend.any (fun e => !e.2.isEmpty) then .error .dependencyLoop
      else .ok ((sorted.reverse).filter (fun n => !(ignoreInstalled && g.installed n)))

/-- The BFS of `Solver.find_best_dependencies` (lines 270-303): requirement
names are dequeued; names already resolved are skipped; a name with no
satisfier raises; otherwise the selector picks the satisfier, whose own
requirement names are enqueued, and the satisfier is recorded under its own
name.  (The source's two raises — name absent from `solver.requirements`
and empty satisfier set — are both modelled by the empty satisfier list.) -/
def findBestLoop (g : SolverGraph) :
    Nat → List String → List (String × Nat) →
    Except SolveErr (List (String × Nat))
  | 0, _, _ => .error .fuel
  | _ + 1, [], deps => .ok deps
  | fuel + 1, r :: rest, deps =>
    if deps.any (fun e => e.1 == r) then findBestLoop g fuel rest deps
    else
      match g.satisfiers r with
      | [] => .error (.reqNotFound r)
      | x :: xs =>
        let satisfier := g.sel (x :: xs)
        findBestLoop g fuel (rest ++ g.reqs satisfier)
          (deps ++ [(g.name satisfier, satisfier)])

/-- `Solver.solve` with a target (lines 324-330): the considered nodes are
the target and its best dependencies, and installed packages are omitted
from the result (`ignore_installed_packages` defaults to true). -/
def solveTarget (g : SolverGraph) (target : Nat) (fuel : Nat) :
    Except SolveErr (List Nat) :=
  match findBestLoop g fuel (g.reqs target) [] with
  | .error e => .error e
  | .ok deps => solve g (target :: deps.map (fun e => e.2)) fuel true

/-- A node `b` depends on a node `a` in a solve when `a` is the dependency
chosen by the selector for one of `b`'s requirements. -/
def dependsOn (g : SolverGraph) (b a : Nat) : Prop :=
  ∃ r ∈ g.reqs b, g.satisfiers r ≠ [] ∧ chosenDep g r = a

/-- The solver state produced by `Solver.from_obj` on the cyclic recipes
`loop-a → loop-b, loop-c`, `loop-b → loop-c`, `loop-c → loop-b` (nodes
0 = loop-a, 1 = loop-b, 2 = loop-c).  The `dependents` lists are those
built by `SolverRequirement.satisfy` and the `from_obj` loop: loop-b gains
dependents `[loop-a, loop-c]`, loop-c gains `[loop-a, loop-b]` and once
more `loop-b` when `(loop-b, loop-c)` is popped after loop-c joined the
solver. -/
def loopGraph : SolverGraph where
  name n := match n with | 0 => "loop-a" | 1 => "loop-b" | _ => "loop-c"
  reqs n := match n with
    | 0 => ["loop-b", "loop-c"]
    | 1 => ["loop-c"]
    | _ => ["loop-b"]
  dependents n := match n with | 0 => [] | 1 => [0, 2] | _ => [0, 1, 1]
  satisfiers r := if r = "loop-b" then [1] else if r = "loop-c" then [2] else []
  sel l := l.headD 0
  installed _ := false

/-! ## Environment install and uninstall (`src/ipkg/environments.py`)

The environment's observable state for these claims is the set of files under
the prefix and the persistent meta document's `packages` map (name →
package meta).  Package metas carry the fields used by `install` and
`uninstall`. -/

/-- The package meta fields consulted by `Environment.install` /
`Environment.uninstall`. -/
structure PkgMeta where
  name : String
  version : String
  revision : String
  files : List String
  deps : List String
deriving DecidableEq, Repr

/-- Environment state: files present under the prefix (relative paths) and
the `meta['packages']` map, an insertion-ordered dictionary keyed by package
name. -/
structure EnvState where
  files : List String
  packages : List (String × PkgMeta)
deriving DecidableEq, Repr

/-- Errors surfaced by `Environment.install`. -/
inductive EnvErr
  | notInstalled (pkg : String)
  | notFound (dep : String)
  | fuel
deriving DecidableEq, Repr

/-- Dictionary write `meta['packages'][key] = m`. -/
def pkgUpsert (ps : List (String × PkgMeta)) (key : String) (m : PkgMeta) :
    List (String × PkgMeta) :=
  match ps with
  | [] => [(key, m)]
  | e :: rest => if e.1 == key then (key, m) :: rest else e :: pkgUpsert rest key m

mutual

/-- Shallow embedding of `Environment.install` (`src/ipkg/environments.py`
lines 290-361) at the granularity of the meta document and the file set.

Lines 314-329: the installed packages are scanned for one with the same
name.  On an exact `(version, revision)` match the function only logs a
warning and returns, leaving the environment untouched.  Otherwise the
source calls `self.uninstall(package)` passing the package OBJECT, while
`uninstall` (line 265) tests `package not in self.meta['packages']` against
the metadata dictionary whose keys are name STRINGS; a `BasePackage`
instance hashes by identity in Python 2, so the membership test fails and
`NotInstalled` is raised: the different-version branch aborts instead of
uninstalling.  This is modelled by the `.error (.notInstalled p.name)`
arm.

Lines 331-336: dependencies not present as keys of `meta['packages']` are
resolved through the repository and installed recursively.  Lines 338-355:
the artifact is extracted under the prefix (file union) and the meta entry
is recorded and persisted.  Prefix rewriting does not change the file set
and is not tracked here.  `fuel` bounds the recursion. -/
def envInstall : Nat → (String → Option PkgMeta) → EnvState → PkgMeta →
    Except EnvErr EnvState
  | 0, _, _, _ => .error .fuel
  | fuel + 1, repo, env, p =>
    match env.packages.find? (fun e => e.2.name == p.name) with
    | some inst =>
      if inst.2.version == p.version && inst.2.revision == p.revision then
        .ok env
      else
        .error (.notInstalled p.name)
    | none =>
      match envInstallDeps fuel repo env p.deps with
      | .error e => .error e
      | .ok env1 =>
        .ok { files := env1.files ++ p.files.filter (fun f => !env1.files.contains f),
              packages := pkgUpsert env1.packages p.name p }

/-- The dependency loop of `Environment.install` (lines 331-336): each
dependency string not already a key of `meta['packages']` is looked up in the
repository and installed. -/
def envInstallDeps : Nat → (String → Option PkgMeta) → EnvState → List String →
    Except EnvErr EnvState
  | 0, _, _, _ => .error .fuel
  | _ + 1, _, env, [] => .ok env
  | fuel + 1, repo, env, d :: ds =>
    if env.packages.any (fun e => e.1 == d) then
      envInstallDeps fuel repo env ds
    else
      match repo d with
      | none => .error (.notFound d)
      | some m =>
        match envInstall fuel repo env m with
        | .error e => .error e
        | .ok env1 => envInstallDeps fuel repo env1 ds

end

/-- Well-formedness of the meta document: keys are unique and every entry's
meta carries its key as name (which `install` guarantees, writing each meta
under `package.name`). -/
def envWF (env : EnvState) : Prop :=
  (env.packages.map Prod.fst).Nodup ∧ ∀ e ∈ env.packages, e.2.name = e.1

theorem pkgUpsert_fst (ps : List (String × PkgMeta)) (key : String) (m : PkgMeta) :
    (pkgUpsert ps key m).map Prod.fst = if key ∈ ps.map Prod.fst
      then ps.map Prod.fst else ps.map Prod.fst ++ [key] := by
  induction ps with
  | nil => simp [pkgUpsert]
  | cons e rest ih =>
    by_cases he : e.1 = key
    · simp [pkgUpsert, he]
    · have hbe : (e.1 == key) = false := by simp [he]
      simp only [pkgUpsert, hbe, Bool.false_eq_true, if_false, List.map_cons, ih]
      have : (key ∈ e.1 :: rest.map Prod.fst) = (key ∈ rest.map Prod.fst) := by
        simp [List.mem_cons, Ne.symm he, fun h : key = e.1 => he h.symm]
      by_cases hk : key ∈ rest.map Prod.fst <;> simp [hk, Ne.symm he]

theorem pkgUpsert_mem {ps : List (String × PkgMeta)} {key : String} {m : PkgMeta}
    {e : String × PkgMeta} (he : e ∈ pkgUpsert ps key m) :
    e = (key, m) ∨ e ∈ ps := by
  induction ps with
  | nil => simpa [pkgUpsert] using he
  | cons hd rest ih =>
    by_cases hh : hd.1 = key
    · simp only [pkgUpsert, hh, beq_self_eq_true, if_true] at he
      rcases List.mem_cons.mp he with rfl | hmem
      · exact Or.inl rfl
      · exact Or.inr (List.mem_cons_of_mem _ hmem)
    · have hbe : (hd.1 == key) = false := by simp [hh]
      simp only [pkgUpsert, hbe, Bool.false_eq_true, if_false] at he
      rcases List.mem_cons.mp he with rfl | hmem
      · exact Or.inr (List.mem_cons_self _ _)
      · rcases ih hmem with h | h
        · exact Or.inl h
        · exact Or.inr (List.mem_cons_of_mem _ h)

theorem envWF_upsert {env1 : EnvState} (hwf : envWF env1) (p : PkgMeta)
    (files : List String) :
    envWF { files := files, packages := pkgUpsert env1.packages p.name p } := by
  obtain ⟨hnd, hnames⟩ := hwf
  constructor
  · show (pkgUpsert env1.packages p.name p).map Prod.fst |>.Nodup
    rw [pkgUpsert_fst]
    by_cases hk : p.name ∈ env1.packages.map Prod.fst
    · simpa [hk] using hnd
    · simp only [hk, if_false]
      simpa [List.nodup_append, hk] using hnd
  · intro e he
    rcases pkgUpsert_mem he with rfl | hmem
    · rfl
    · exact hnames e hmem

theorem envInstall_WF :
    ∀ fuel : Nat,
      (∀ (repo : String → Option PkgMeta) (env : EnvState) (p : PkgMeta)
        (env1 : EnvState), envWF env → envInstall fuel repo env p = .ok env1 →
        envWF env1) ∧
      (∀ (repo : String → Option PkgMeta) (env : EnvState) (ds : List String)
        (env1 : EnvState), envWF env → envInstallDeps fuel repo env ds = .ok env1 →
        envWF env1) := by
  intro fuel
  induction fuel with
  | zero =>
    constructor
    · intro repo env p env1 _ h
      simp [envInstall] at h
    · intro repo env ds env1 _ h
      simp [envInstallDeps] at h
  | succ fuel ih =>
    obtain ⟨ihInst, ihDeps⟩ := ih
    constructor
    · intro repo env p env1 hwf h
      rw [envInstall] at h
      split at h
      · split at h
        · simp only [Except.ok.injEq] at h
          subst h
          exact hwf
        · exact absurd h (by simp)
      · rename_i hfind
        split at h
        · exact absurd h (by simp)
        · rename_i env2 hdeps
          simp only [Except.ok.injEq] at h
          subst h
          exact envWF_upsert (ihDeps repo env p.deps env2 hwf hdeps) p _
    · intro repo env ds env1 hwf h
      match ds with
      | [] =>
        rw [envInstallDeps] at h
        simp only [Except.ok.injEq] at h
        subst h
        exact hwf
      | d :: ds =>
        rw [envInstallDeps] at h
        split at h
        · exact ihDeps repo env ds env1 hwf h
        · split at h
          · exact absurd h (by simp)
          · rename_i m hrepo
            split at h
            · exact absurd h (by simp)
            · rename_i env2 hinst
              exact ihDeps repo env2 ds env1
                (ihInst repo env m env2 hwf hinst) h

theorem find?_pkgUpsert (ps : List (String × PkgMeta)) (p : PkgMeta)
    (hnames : ∀ e ∈ ps, e.2.name = e.1) :
    List.find? (fun e => e.2.name == p.name) (pkgUpsert ps p.name p) =
      some (p.name, p) := by
  induction ps with
  | nil => simp [pkgUpsert, List.find?]
  | cons e rest ih =>
    by_cases hh : e.1 = p.name
    · simp [pkgUpsert, hh, List.find?]
    · have hbe : (e.1 == p.name) = false := by simp [hh]
      have hname : e.2.name = e.1 := hnames e (List.mem_cons_self _ _)
      have hpred : (e.2.name == p.name) = false := by
        rw [hname]; exact hbe
      simp only [pkgUpsert, hbe, Bool.false_eq_true, if_false, List.find?, hpred]
      exact ih (fun x hx => hnames x (List.mem_cons_of_mem _ hx))

theorem envInstall_ok_find (fuel : Nat) (repo : String → Option PkgMeta)
    (env env1 : EnvState) (p : PkgMeta) (hwf : envWF env)
    (h : envInstall fuel repo env p = .ok env1) :
    ∃ inst, env1.packages.find? (fun e => e.2.name == p.name) = some inst ∧
      inst.2.version = p.version ∧ inst.2.revision = p.revision := by
  match fuel with
  | 0 => rw [envInstall] at h; exact absurd h (by simp)
  | fuel + 1 =>
    rw [envInstall] at h
    split at h
    · rename_i inst hfind
      split at h
      · rename_i hvr
        simp only [Except.ok.injEq] at h
        subst h
        simp only [Bool.and_eq_true, beq_iff_eq] at hvr
        exact ⟨inst, hfind, hvr.1, hvr.2⟩
      · exact absurd h (by simp)
    · split at h
      · exact absurd h (by simp)
      · rename_i env2 hdeps
        simp only [Except.ok.injEq] at h
        subst h
        have hwf2 : envWF env2 := (envInstall_WF fuel).2 repo env p.deps env2 hwf hdeps
        exact ⟨(p.name, p), find?_pkgUpsert env2.packages p hwf2.2, rfl, rfl⟩

/-- C6: if a first call to `Environment.install` succeeded (in particular
whenever a package of the same name is already installed at the same
`(version, revision)`), a second call with the same package returns
successfully (only a warning is logged) and is a no-op: the environment's
files, its meta document and the recorded `PackageMeta` are all exactly the
state left by the first install. -/
theorem envInstall_idempotent (fuel fuel2 : Nat) (repo : String → Option PkgMeta)
    (env env1 : EnvState) (p : PkgMeta) (hwf : envWF env)
    (h1 : envInstall fuel repo env p = .ok env1) :
    envInstall (fuel2 + 1) repo env1 p = .ok env1 := by
  obtain ⟨inst, hfind, hv, hr⟩ := envInstall_ok_find fuel repo env env1 p hwf h1
  rw [envInstall]
  simp [hfind, hv, hr]

/-- Concrete package meta `foo 1.0 revision 1` shipping one file. -/
def fooMeta : PkgMeta :=
  { name := "foo", version := "1.0", revision := "1",
    files := ["foo.README"], deps := [] }

/-- The same package at version `2.0`. -/
def fooMeta2 : PkgMeta :=
  { name := "foo", version := "2.0", revision := "1",
    files := ["foo.README"], deps := [] }

/-- Environment with `foo 1.0-1` installed. -/
def envWithFoo : EnvState :=
  { files := ["foo.README"], packages := [("foo", fooMeta)] }

/-- Witness for C6: `foo 1.0-1` installed into an empty environment, then
installed again; the second call returns the unchanged environment. -/
theorem envInstall_idempotent_witness :
    envWF (EnvState.mk [] []) ∧
      envInstall 2 (fun _ => none) (EnvState.mk [] []) fooMeta = .ok envWithFoo ∧
      envInstall 1 (fun _ => none) envWithFoo fooMeta = .ok envWithFoo :=
  ⟨⟨by simp, by simp⟩, rfl,
    envInstall_idempotent 2 0 (fun _ => none) (EnvState.mk [] []) envWithFoo fooMeta
      ⟨by simp, by simp⟩ rfl⟩

/-- C7 evaluated at the failing input: with `foo 1.0-1` installed,
installing `foo 2.0-1` hits the different-version branch of
`Environment.install` (line 328), which calls `self.uninstall(package)` with
the package object; `uninstall`'s membership test against the string-keyed
meta dictionary fails, and the call raises `NotInstalled` instead of
uninstalling the old version and installing the new one. -/
theorem envInstall_upgrade_raises_notInstalled :
    envInstall 2 (fun _ => none) envWithFoo fooMeta2 =
      .error (.notInstalled "foo") := rfl

/-! ## The build pipeline (`src/ipkg/build.py`, `Formula.build`)

`Formula.build` (lines 140-214) mutates the build environment in sequence:
install missing dependencies, unarchive the sources, apply patches, snapshot
the prefix file list, run the recipe's install step, diff the prefix to get
the captured file set, create the package, then remove the captured files
and uninstall the dependencies.  The body contains no `try`/`finally`: an
exception from any step propagates immediately.  `BuildIn.failAt` marks the
step (if any) at which the underlying command raises. -/

/-- Fallible steps of `Formula.build` after the build directory exists. -/
inductive BuildStep
  | unarchive | patch | install | packaging
deriving DecidableEq, Repr

/-- One build run: the metas resolved for the declared dependencies, the
step at which the run fails (if any), and the files the recipe's install
step produces under the prefix. -/
structure BuildIn where
  deps : List PkgMeta
  failAt : Option BuildStep
  newFiles : List String

/-- Errors propagated out of `Formula.build`. -/
inductive BuildErr
  | stepFailed (s : BuildStep)
  | cleanupErr (e : EnvErr)
deriving DecidableEq, Repr

/-- Dependency installation of `Formula.build` lines 161-167: each declared
dependency not present in the environment (membership is by package name) is
installed — its files extracted and its meta recorded. -/
def buildInstallDeps (deps : List PkgMeta) (env : EnvState) : EnvState :=
  deps.foldl
    (fun e m =>
      if e.packages.any (fun kv => kv.2.name == m.name) then e
      else { files := e.files ++ m.files.filter (fun f => !e.files.contains f),
             packages := pkgUpsert e.packages m.name m })
    env

/-- Shallow embedding of `Environment.uninstall` (lines 262-288) at the meta
and file-set granularity: fail if the name is not a key of
`meta['packages']`, else remove the files listed in the entry and erase the
entry. -/
def envUninstall (env : EnvState) (nm : String) : Except EnvErr EnvState :=
  match env.packages.find? (fun kv => kv.1 == nm) with
  | none => .error (.notInstalled nm)
  | some kv =>
    .ok { files := env.files.filter (fun f => !kv.2.files.contains f),
          packages := env.packages.filter (fun e => !(e.1 == nm)) }

/-- The dependency-uninstall loop of `Formula.build` lines 203-206 (note the
source uninstalls every declared dependency, not only those step 3
installed). -/
def uninstallAll : List PkgMeta → EnvState → Except EnvErr EnvState
  | [], env => .ok env
  | m :: rest, env =>
    match envUninstall env m.name with
    | .error e => .error e
    | .ok env1 => uninstallAll rest env1

/-- Environment state after the recipe's install step: the new files have
appeared under the prefix. -/
def buildEnvAfterInstall (inp : BuildIn) (env : EnvState) : EnvState :=
  let env1 := buildInstallDeps inp.deps env
  { env1 with
    files := env1.files ++ inp.newFiles.filter (fun f => !env1.files.contains f) }

/-- Shallow embedding of `Formula.build` (lines 140-214).  The result pairs
the final environment state with the outcome (the captured file list on
success).  Since the source has no `try`/`finally`, a failing step returns
the environment exactly as the preceding steps left it. -/
def formulaBuild (inp : BuildIn) (env : EnvState) :
    EnvState × Except BuildErr (List String) :=
  let env1 := buildInstallDeps inp.deps env
  if inp.failAt = some BuildStep.unarchive then
    (env1, .error (.stepFailed .unarchive))
  else if inp.failAt = some BuildStep.patch then
    (env1, .error (.stepFailed .patch))
  else
    let before := env1.files
    if inp.failAt = some BuildStep.install then
      (env1, .error (.stepFailed .install))
    else
      let env2 := buildEnvAfterInstall inp env
      let captured := env2.files.filter (fun f => !before.contains f)
      if inp.failAt = some BuildStep.packaging then
        (env2, .error (.stepFailed .packaging))
      else
        let env3 := { env2 with
          files := env2.files.filter (fun f => !captured.contains f) }
        match uninstallAll inp.deps env3 with
        | .error e => (env3, .error (.cleanupErr e))
        | .ok env4 => (env4, .ok captured)

/-- The claimed property of C8: whenever a step after build-directory
creation fails, `Formula.build` still performs the prefix cleanup before
propagating — the captured files are removed and the dependencies installed
by the build are uninstalled, leaving the environment as it was before the
build. -/
def buildCleansOnFailure : Prop :=
  ∀ (inp : BuildIn) (env : EnvState) (e : BuildErr),
    (formulaBuild inp env).2 = .error e → (formulaBuild inp env).1 = env

/-- C8 counterexample: a build whose configure/make/install step fails after
having installed the dependency `foo 1.0-1` into a previously empty
environment terminates with the dependency still installed and its files
still under the prefix: no cleanup happened before the error propagated. -/
theorem formulaBuild_cleanup_claim_false : ¬ buildCleansOnFailure := by
  intro h
  have hc := h { deps := [fooMeta], failAt := some BuildStep.install, newFiles := [] }
    (EnvState.mk [] []) (.stepFailed .install) rfl
  revert hc
  decide

/-- C8 amended: `Formula.build` has no `try`/`finally`; a step that raises
propagates its error immediately and no cleanup runs: the environment keeps
every mutation made by the steps before the failure (the installed
dependencies, and for a packaging failure also the captured files).  The
cleanup of captured files and dependencies happens only on the success
path. -/
theorem formulaBuild_error_keeps_state (inp : BuildIn) (env : EnvState)
    (s : BuildStep) (hfail : inp.failAt = some s) :
    formulaBuild inp env =
      ((if s = BuildStep.packaging then buildEnvAfterInstall inp env
        else buildInstallDeps inp.deps env),
       .error (.stepFailed s)) := by
  cases s <;> simp [formulaBuild, hfail]

/-- Witness for C8's amended theorem: the install-step failure of the
counterexample build leaves the dependency installed. -/
theorem formulaBuild_error_keeps_state_witness :
    ({ deps := [fooMeta], failAt := some BuildStep.install, newFiles := [] } :
        BuildIn).failAt = some BuildStep.install ∧
      formulaBuild
          { deps := [fooMeta], failAt := some BuildStep.install, newFiles := [] }
          (EnvState.mk [] []) =
        ((if BuildStep.install = BuildStep.packaging then
            buildEnvAfterInstall
              { deps := [fooMeta], failAt := some BuildStep.install, newFiles := [] }
              (EnvState.mk [] [])
          else
            buildInstallDeps [fooMeta] (EnvState.mk [] [])),
         .error (.stepFailed .install)) :=
  ⟨rfl,
    formulaBuild_error_keeps_state
      { deps := [fooMeta], failAt := some BuildStep.install, newFiles := [] }
      (EnvState.mk [] []) BuildStep.install rfl⟩

/-- A node is promised to be processed later: it sits in the queue, or its
pending-dependents entry exists and is nonempty (so a later pop will empty
it and enqueue the node). -/
def Promised (q : List Nat) (p : Pend) (a : Nat) : Prop :=
  a ∈ q ∨ ∃ l, pendLookup p a = some l ∧ l ≠ []

/-- Loop invariant of `solve`: every requirement of every already-processed
node has its chosen dependency either strictly later in the processed list
or promised. -/
def SolveInv (g : SolverGraph) (q : List Nat) (s : List Nat) (p : Pend) : Prop :=
  ∀ i b, s.get? i = some b → ∀ r ∈ g.reqs b,
    (∃ j, i < j ∧ s.get? j = some (chosenDep g r)) ∨ Promised q p (chosenDep g r)

/-- Every occurrence of `b` in `l` has an occurrence of `a` strictly
before it. -/
def hasEarlier (l : List Nat) (a b : Nat) : Prop :=
  ∀ j, l.get? j = some b → ∃ i, i < j ∧ l.get? i = some a

theorem pendLookup_pendInsert_self (p : Pend) (d : Nat) (l : List Nat) :
    pendLookup (pendInsert p d l) d = some l := by
  induction p with
  | nil =>
    rw [show pendInsert [] d l = [(d, l)] from rfl]
    unfold pendLookup
    rw [List.find?_cons_of_pos _ (by simp)]
    rfl
  | cons e rest ih =>
    unfold pendInsert
    by_cases h : e.1 = d
    · rw [if_pos (by simpa using h)]
      unfold pendLookup
      rw [List.find?_cons_of_pos _ (by simp)]
      rfl
    · rw [if_neg (by simpa using h)]
      unfold pendLookup
      rw [List.find?_cons_of_neg _ (by simpa using h)]
      exact ih

theorem pendLookup_pendInsert_ne (p : Pend) (d x : Nat) (l : List Nat)
    (h : x ≠ d) : pendLookup (pendInsert p d l) x = pendLookup p x := by
  induction p with
  | nil =>
    rw [show pendInsert [] d l = [(d, l)] from rfl]
    unfold pendLookup
    rw [List.find?_cons_of_neg _ (by simp; omega)]
  | cons e rest ih =>
    unfold pendInsert
    by_cases he : e.1 = d
    · rw [if_pos (by simpa using he)]
      unfold pendLookup
      rw [List.find?_cons_of_neg _ (by simp; omega),
          List.find?_cons_of_neg _ (by simp [he]; omega)]
    · rw [if_neg (by simpa using he)]
      by_cases hex : e.1 = x
      · unfold pendLookup
        rw [List.find?_cons_of_pos _ (by simp [hex]),
            List.find?_cons_of_pos _ (by simp [hex])]
      · unfold pendLookup
        rw [List.find?_cons_of_neg _ (by simp [hex]),
            List.find?_cons_of_neg _ (by simp [hex])]
        exact ih

theorem stepReq_queue (g : SolverGraph) (nm : String) (q : List Nat)
    (p : Pend) (r : String) (q2 : List Nat) (p2 : Pend)
    (h : stepReq g nm (q, p) r = .ok (q2, p2)) : ∃ suf, q2 = q ++ suf := by
  simp only [stepReq] at h
  split at h
  · exact absurd h (by simp)
  · split at h
    · exact ⟨[chosenDep g r], by cases h; rfl⟩
    · exact ⟨[], by cases h; simp⟩

theorem stepReq_promised (g : SolverGraph) (nm : String) (q : List Nat)
    (p : Pend) (r : String) (q2 : List Nat) (p2 : Pend) (a : Nat)
    (h : stepReq g nm (q, p) r = .ok (q2, p2)) (hp : Promised q p a) :
    Promised q2 p2 a := by
  simp only [stepReq] at h
  split at h
  · exact absurd h (by simp)
  · split at h <;> rename_i hcur <;> cases h
    · -- empty filtered dependents: the dependency is appended to the queue
      rcases hp with hq | ⟨l, hl, hlne⟩
      · exact Or.inl (List.mem_append_left _ hq)
      · by_cases had : a = chosenDep g r
        · exact Or.inl (List.mem_append_right _ (had ▸ List.mem_singleton_self _))
        · exact Or.inr ⟨l, by rw [pendLookup_pendInsert_ne _ _ _ _ had]; exact hl, hlne⟩
    · -- nonempty filtered dependents: pend entry stays nonempty
      rcases hp with hq | ⟨l, hl, hlne⟩
      · exact Or.inl hq
      · by_cases had : a = chosenDep g r
        · subst had
          refine Or.inr ⟨_, pendLookup_pendInsert_self _ _ _, ?_⟩
          intro hnil
          rw [hnil] at hcur
          simp at hcur
        · exact Or.inr ⟨l, by rw [pendLookup_pendInsert_ne _ _ _ _ had]; exact hl, hlne⟩

theorem stepReq_new (g : SolverGraph) (nm : String) (q : List Nat)
    (p : Pend) (r : String) (q2 : List Nat) (p2 : Pend)
    (h : stepReq g nm (q, p) r = .ok (q2, p2)) :
    Promised q2 p2 (chosenDep g r) := by
  simp only [stepReq] at h
  split at h
  · exact absurd h (by simp)
  · split at h <;> rename_i hcur <;> cases h
    · exact Or.inl (List.mem_append_right _ (List.mem_singleton_self _))
    · refine Or.inr ⟨_, pendLookup_pendInsert_self _ _ _, ?_⟩
      intro hnil
      rw [hnil] at hcur
      simp at hcur

theorem procReqs_queue (g : SolverGraph) (nm : String) :
    ∀ (rs : List String) (q : List Nat) (p : Pend) (q2 : List Nat) (p2 : Pend),
      procReqs g nm rs (q, p) = .ok (q2, p2) → ∃ suf, q2 = q ++ suf := by
  intro rs
  induction rs with
  | nil =>
    intro q p q2 p2 h
    cases h
    exact ⟨[], by simp⟩
  | cons r rest ih =>
    intro q p q2 p2 h
    unfold procReqs at h
    split at h
    · exact absurd h (by simp)
    · rename_i st hst
      obtain ⟨suf1, h1⟩ := stepReq_queue g nm q p r st.1 st.2 hst
      obtain ⟨suf2, h2⟩ := ih st.1 st.2 q2 p2 h
      exact ⟨suf1 ++ suf2, by rw [h2, h1, List.append_assoc]⟩

theorem procReqs_promised (g : SolverGraph) (nm : String) :
    ∀ (rs : List String) (q : List Nat) (p : Pend) (q2 : List Nat) (p2 : Pend)
      (a : Nat), procReqs g nm rs (q, p) = .ok (q2, p2) →
      Promised q p a → Promised q2 p2 a := by
  intro rs
  induction rs with
  | nil =>
    intro q p q2 p2 a h hp
    cases h
    exact hp
  | cons r rest ih =>
    intro q p q2 p2 a h hp
    unfold procReqs at h
    split at h
    · exact absurd h (by simp)
    · rename_i st hst
      exact ih st.1 st.2 q2 p2 a h (stepReq_promised g nm q p r st.1 st.2 a hst hp)

theorem procReqs_new (g : SolverGraph) (nm : String) :
    ∀ (rs : List String) (q : List Nat) (p : Pend) (q2 : List Nat) (p2 : Pend),
      procReqs g nm rs (q, p) = .ok (q2, p2) →
      ∀ r ∈ rs, Promised q2 p2 (chosenDep g r) := by
  intro rs
  induction rs with
  | nil =>
    intro q p q2 p2 _ r hr
    exact absurd hr (by simp)
  | cons r0 rest ih =>
    intro q p q2 p2 h r hr
    unfold procReqs at h
    split at h
    · exact absurd h (by simp)
    · rename_i st hst
      rcases List.mem_cons.mp hr with hr0 | hrest
      · subst hr0
        exact procReqs_promised g nm rest st.1 st.2 q2 p2 _ h
          (stepReq_new g nm q p r st.1 st.2 hst)
      · exact ih st.1 st.2 q2 p2 h r hrest

theorem solveLoop_inv (g : SolverGraph) :
    ∀ (fuel : Nat) (q s : List Nat) (p : Pend) (sorted : List Nat) (pend : Pend),
      SolveInv g q s p → solveLoop g fuel q s p = .ok (sorted, pend) →
      SolveInv g [] sorted pend := by
  intro fuel
  induction fuel with
  | zero =>
    intro q s p sorted pend _ h
    exact absurd h (by simp [solveLoop])
  | succ fuel ih =>
    intro q s p sorted pend hinv h
    match q with
    | [] =>
      obtain ⟨h1, h2⟩ : s = sorted ∧ p = pend := by
        simpa [solveLoop] using h
      subst h1; subst h2
      exact hinv
    | node :: rest =>
      simp only [solveLoop] at h
      split at h
      · exact absurd h (by simp)
      · rename_i st hst
        obtain ⟨q2, p2⟩ := st
        refine ih q2 (s ++ [node]) p2 sorted pend ?_ h
        intro i b hib r hr
        obtain ⟨hilen, -⟩ := List.get?_eq_some.mp hib
        rw [List.length_append, List.length_singleton] at hilen
        rcases Nat.lt_or_ge i s.length with hi | hi
        · have hsib : s.get? i = some b := by
            rw [List.get?_append hi] at hib
            exact hib
          rcases hinv i b hsib r hr with ⟨j, hij, hj⟩ | hprom
          · obtain ⟨hjlen, -⟩ := List.get?_eq_some.mp hj
            exact Or.inl ⟨j, hij, by rw [List.get?_append hjlen]; exact hj⟩
          · rcases hprom with hq | hpend
            · rcases List.mem_cons.mp hq with hnode | hrest2
              · refine Or.inl ⟨s.length, hi, ?_⟩
                rw [List.get?_concat_length, hnode]
              · exact Or.inr (procReqs_promised g (g.name node) (g.reqs node)
                  rest p q2 p2 _ hst (Or.inl hrest2))
            · exact Or.inr (procReqs_promised g (g.name node) (g.reqs node)
                rest p q2 p2 _ hst (Or.inr hpend))
        · have hieq : i = s.length := by omega
          subst hieq
          rw [List.get?_concat_length] at hib
          have hbnode : node = b := Option.some.inj hib
          subst hbnode
          exact Or.inr (procReqs_new g (g.name node) (g.reqs node)
            rest p q2 p2 hst r hr)

theorem promised_empty_pend (p : Pend) (a : Nat)
    (hp : p.any (fun e => !e.2.isEmpty) = false) : ¬ Promised [] p a := by
  rintro (hq | ⟨l, hl, hlne⟩)
  · exact absurd hq (List.not_mem_nil a)
  · obtain ⟨e, hfind⟩ : ∃ e, List.find? (fun e => e.1 == a) p = some e ∧ e.2 = l := by
      unfold pendLookup at hl
      rcases hmem : List.find? (fun e => e.1 == a) p with - | e
      · rw [hmem] at hl; exact absurd hl (by simp)
      · rw [hmem] at hl
        simp only [Option.map] at hl
        exact ⟨e, hmem, Option.some.inj hl⟩
    have hmem2 : e ∈ p := List.mem_of_find?_eq_some hfind.1
    have := (List.any_eq_false.mp hp) e hmem2
    simp only [Bool.not_eq_true', Bool.not_eq_false] at this
    exact hlne (hfind.2 ▸ List.isEmpty_iff.mp this)

theorem no_self_occurrence (l : List Nat) (b : Nat)
    (h : ∀ i, l.get? i = some b → ∃ j, i < j ∧ l.get? j = some b) : b ∉ l := by
  have key : ∀ k i, l.length - i ≤ k → l.get? i = some b → False := by
    intro k
    induction k with
    | zero =>
      intro i hk hb
      obtain ⟨hlt, -⟩ := List.get?_eq_some.mp hb
      omega
    | succ k ih =>
      intro i hk hb
      obtain ⟨j, hij, hjb⟩ := h i hb
      obtain ⟨hjlt, -⟩ := List.get?_eq_some.mp hjb
      exact ih j (by omega) hjb
  intro hb
  obtain ⟨i, hi⟩ := List.mem_iff_get?.mp hb
  exact key l.length i (by omega) hi

theorem get_indexOf_self (l : List Nat) (b : Nat) (hb : b ∈ l) :
    l.get? (l.indexOf b) = some b := by
  induction l with
  | nil => exact absurd hb (List.not_mem_nil b)
  | cons x t ih =>
    by_cases hx : x = b
    · subst hx
      rw [List.indexOf_cons_self]
      rfl
    · rw [List.indexOf_cons_ne t (by simpa using hx)]
      have hbt : b ∈ t := by
        rcases List.mem_cons.mp hb with h | h
        · exact absurd h.symm hx
        · exact h
      simpa using ih hbt

theorem indexOf_le_of_get (l : List Nat) (a : Nat) :
    ∀ i, l.get? i = some a → l.indexOf a ≤ i := by
  induction l with
  | nil =>
    intro i hi
    exact absurd hi (by simp)
  | cons x t ih =>
    intro i hi
    by_cases hx : x = a
    · subst hx
      rw [List.indexOf_cons_self]
      omega
    · match i with
      | 0 => exact absurd (Option.some.inj hi) hx
      | i + 1 =>
        rw [List.indexOf_cons_ne t (by simpa using hx)]
        exact Nat.succ_le_succ (ih i hi)

theorem hasEarlier_reverse (l : List Nat) (a b : Nat)
    (h : ∀ i, l.get? i = some b → ∃ j, i < j ∧ l.get? j = some a) :
    hasEarlier l.reverse a b := by
  intro j hj
  obtain ⟨hjlt, -⟩ := List.get?_eq_some.mp hj
  rw [List.length_reverse] at hjlt
  rw [List.get?_reverse hjlt] at hj
  obtain ⟨k, hk1, hk2⟩ := h (l.length - 1 - j) hj
  obtain ⟨hklt, -⟩ := List.get?_eq_some.mp hk2
  refine ⟨l.length - 1 - k, by omega, ?_⟩
  rw [List.get?_reverse (show l.length - 1 - k < l.length by omega)]
  rw [show l.length - 1 - (l.length - 1 - k) = k by omega]
  exact hk2

theorem hasEarlier_filter (l : List Nat) (a b : Nat) (keep : Nat → Bool)
    (hab : a ≠ b) (hka : keep a = true) (h : hasEarlier l a b) :
    hasEarlier (l.filter keep) a b := by
  induction l with
  | nil =>
    intro j hj
    exact absurd hj (by simp)
  | cons x t ih =>
    by_cases hx : x = a
    · subst hx
      rw [List.filter_cons_of_pos hka]
      intro j hj
      match j, hj with
      | 0, hj => exact absurd (Option.some.inj hj) hab
      | j + 1, hj => exact ⟨0, by omega, rfl⟩
    · have ht : hasEarlier t a b := by
        intro j hj
        obtain ⟨i, hij, hia⟩ := h (j + 1) (by simpa using hj)
        match i, hia with
        | 0, hia => exact absurd (Option.some.inj hia) hx
        | i + 1, hia => exact ⟨i, by omega, by simpa using hia⟩
      have hxb : x ≠ b := by
        intro hxb
        obtain ⟨i, hij, -⟩ := h 0 (by simp [hxb])
        omega
      by_cases hkx : keep x = true
      · rw [List.filter_cons_of_pos hkx]
        intro j hj
        match j, hj with
        | 0, hj => exact absurd (Option.some.inj hj) hxb
        | j + 1, hj =>
          obtain ⟨i, hij, hia⟩ := ih ht j (by simpa using hj)
          exact ⟨i + 1, by omega, by simpa using hia⟩
      · rw [List.filter_cons_of_neg (by simpa using hkx)]
        exact ih ht

/-- **C5** `Solver.solve` fails when ordering is impossible: (1) if no node
of the considered set is free of dependents, it raises at once (line 339);
(2) if the loop terminates with a node whose pending-dependents entry is
still nonempty, it raises `DependencyLoop` (line 389); (3) in particular,
on the solver state of the recipes `loop-a → loop-b, loop-c`,
`loop-b → loop-c`, `loop-c → loop-b`, solving for `loop-a` fails with
`DependencyLoop`. -/
theorem solve_cycle_conditions :
    (∀ (g : SolverGraph) (nodes : List Nat) (fuel : Nat) (ign : Bool),
        (nodes.filter (fun n => (g.dependents n).isEmpty)).isEmpty = true →
        solve g nodes fuel ign = .error .noRoot) ∧
    (∀ (g : SolverGraph) (nodes : List Nat) (fuel : Nat) (ign : Bool)
        (sorted : List Nat) (pend : Pend),
        solveLoop g fuel (nodes.filter (fun n => (g.dependents n).isEmpty)) [] []
          = .ok (sorted, pend) →
        (nodes.filter (fun n => (g.dependents n).isEmpty)).isEmpty = false →
        pend.any (fun e => !e.2.isEmpty) = true →
        solve g nodes fuel ign = .error .dependencyLoop) ∧
    solveTarget loopGraph 0 10 = .error .dependencyLoop := by
  refine ⟨?_, ?_, rfl⟩
  · intro g nodes fuel ign h
    unfold solve
    simp only [h, if_true]
  · intro g nodes fuel ign sorted pend hloop hroots hpend
    unfold solve
    simp only [hroots, Bool.false_eq_true, if_false, hloop, hpend, if_true]

theorem solve_cycle_conditions_witness :
    solve loopGraph [1, 2] 10 true = .error .noRoot ∧
      solve loopGraph [0, 1, 2] 10 true = .error .dependencyLoop ∧
      solveTarget loopGraph 0 10 = .error .dependencyLoop :=
  ⟨solve_cycle_conditions.1 loopGraph [1, 2] 10 true rfl,
    solve_cycle_conditions.2.1 loopGraph [0, 1, 2] 10 true
      [0] [(1, [2]), (2, [1, 1])] rfl rfl rfl,
    solve_cycle_conditions.2.2⟩

/-- **C1** The list returned by `Solver.solve` is topologically ordered:
whenever both `a` and `b` occur in the returned list and `b` depends on `a`
(`a` is the dependency the selector chooses for one of `b`'s requirements),
`a` occurs strictly before `b`.  The returned list is by construction the
reverse of the processed order, filtered of installed packages. -/
theorem solve_topological (g : SolverGraph) (nodes : List Nat) (fuel : Nat)
    (ign : Bool) (result : List Nat) (a b : Nat)
    (hok : solve g nodes fuel ign = .ok result)
    (ha : a ∈ result) (hb : b ∈ result) (hdep : dependsOn g b a) :
    result.indexOf a < result.indexOf b := by
  simp only [solve] at hok
  split at hok
  · exact absurd hok (by simp)
  · split at hok
    · exact absurd hok (by simp)
    · rename_i sorted pend heq
      split at hok
      · exact absurd hok (by simp)
      · rename_i hpend
        have hres : result
            = (sorted.reverse).filter (fun n => !(ign && g.installed n)) :=
          (Except.ok.inj hok).symm
        subst hres
        have hinv0 : SolveInv g
            (nodes.filter fun n => (g.dependents n).isEmpty) [] [] := by
          intro i b' hib'
          simp at hib'
        have hinv := solveLoop_inv g fuel _ [] [] sorted pend hinv0 heq
        obtain ⟨r, hr, -, hchosen⟩ := hdep
        have hpend2 : pend.any (fun e => !e.2.isEmpty) = false := by
          simpa using hpend
        have hocc : ∀ i, sorted.get? i = some b
            → ∃ j, i < j ∧ sorted.get? j = some a := by
          intro i hi
          rcases hinv i b hi r hr with ⟨j, hij, hj⟩ | hprom
          · exact ⟨j, hij, by rw [hchosen] at hj; exact hj⟩
          · exact absurd hprom (promised_empty_pend pend _ hpend2)
        have hbs : b ∈ sorted := List.mem_reverse.mp (List.mem_filter.mp hb).1
        have hab : a ≠ b := by
          intro hab
          refine no_self_occurrence sorted b ?_ hbs
          intro i hi
          obtain ⟨j, hij, hj⟩ := hocc i hi
          exact ⟨j, hij, hab ▸ hj⟩
        have hka : (fun n => !(ign && g.installed n)) a = true :=
          (List.mem_filter.mp ha).2
        have hrev := hasEarlier_reverse sorted a b hocc
        have hflt := hasEarlier_filter sorted.reverse a b
          (fun n => !(ign && g.installed n)) hab hka hrev
        obtain ⟨i, hi, hia⟩ := hflt _ (get_indexOf_self _ b hb)
        have hle := indexOf_le_of_get _ a i hia
        omega

/-- A two-node solver state: node 0 (named "app") requires "lib", which is
satisfied by node 1 (named "lib"); instantiates the ordering theorem. -/
def chainGraph : SolverGraph where
  name n := if n = 0 then "app" else "lib"
  reqs n := if n = 0 then ["lib"] else []
  dependents n := if n = 1 then [0] else []
  satisfiers r := if r = "lib" then [1] else []
  sel l := l.headD 0
  installed _ := false

theorem solve_topological_witness :
    ([1, 0] : List Nat).indexOf 1 < ([1, 0] : List Nat).indexOf 0 :=
  solve_topological chainGraph [0, 1] 4 false [1, 0] 1 0 rfl
    (by decide) (by decide)
    ⟨"lib", by simp [chainGraph], by simp [chainGraph], rfl⟩

end Ipkg
